import Mathlib

/-!
Verification development for the Smart-Resume-Screener extraction core
(`backend/parser.py` and `backend/models.py`).

Text is modelled as `List Char`.  Python regular-expression operations are
embedded as dedicated scanning functions; each definition's doc comment names
the source construct it implements.  External libraries used by the source
(spaCy's NLP pipeline, difflib's similarity score) are modelled as explicit
oracle parameters, since their behaviour is not part of this repository.
-/

set_option maxRecDepth 10000

namespace SRS

abbrev Str := List Char

def strOf (s : String) : Str := s.data

/-- Python's `\s` character class on ASCII text (also the set stripped by
`str.strip()`): space, tab, newline, carriage return, vertical tab, form feed. -/
def isPySpace (c : Char) : Bool :=
  c = ' ' || c = '\t' || c = '\n' || c = '\r' || c = '\x0b' || c = '\x0c'

/-- Python's `\d` on ASCII text. -/
def isPyDigit (c : Char) : Bool := '0' ≤ c && c ≤ '9'

def isAsciiAlpha (c : Char) : Bool := ('a' ≤ c && c ≤ 'z') || ('A' ≤ c && c ≤ 'Z')

/-- Python's `\w` on ASCII text: letters, digits, underscore. -/
def isWordChar (c : Char) : Bool := isAsciiAlpha c || isPyDigit c || c = '_'

/-- ASCII lower-casing, as used by `str.lower()` / `re.IGNORECASE` on ASCII. -/
def lowerCh (c : Char) : Char :=
  if 'A' ≤ c && c ≤ 'Z' then Char.ofNat (c.toNat + 32) else c

def lowerStr (s : Str) : Str := s.map lowerCh

/-- Case-sensitive "pattern is a prefix of s". -/
def leadsWith : Str → Str → Bool
  | [], _ => true
  | _ :: _, [] => false
  | p :: ps, c :: cs => (p = c) && leadsWith ps cs

/-- Case-insensitive "pattern is a prefix of s". -/
def leadsWithCI (pat s : Str) : Bool := leadsWith (lowerStr pat) (lowerStr s)

/-- Case-sensitive substring test. -/
def hasSub (pat : Str) : Str → Bool
  | [] => leadsWith pat []
  | c :: cs => leadsWith pat (c :: cs) || hasSub pat cs

/-- Case-insensitive substring test (Python `pat in s.lower()` for lowercase
`pat`, or `re.search` of a literal with `re.IGNORECASE`). -/
def hasSubCI (pat s : Str) : Bool := hasSub (lowerStr pat) (lowerStr s)

def dropEnd (p : Char → Bool) (l : Str) : Str := (l.reverse.dropWhile p).reverse

/-- Python `str.strip()`. -/
def pyStrip (l : Str) : Str := dropEnd isPySpace (l.dropWhile isPySpace)

/-- Python `str.split('\n')`. -/
def splitNl : Str → List Str
  | [] => [[]]
  | c :: rest =>
    if c = '\n' then [] :: splitNl rest
    else
      match splitNl rest with
      | [] => [[c]]
      | l :: ls => (c :: l) :: ls

/-- Python `'\n'.join(...)`. -/
def joinNl : List Str → Str
  | [] => []
  | [l] => l
  | l :: ls => l ++ '\n' :: joinNl ls

def takeCount (p : Char → Bool) (l : Str) : Nat := (l.takeWhile p).length

/-!
## Text cleaning (`parser.py`, `clean_text`, lines 287-320)

Each `re.sub` of `clean_text` is embedded as a dedicated function.  Global
substitution scans left to right, replaces the leftmost match and resumes
immediately after it, exactly as `re.sub` does; none of the patterns below can
match the empty string.
-/

/-- Substitute every match of a pattern (given by a match-length function at
the current position; lengths are always positive) with `repl`.  Structural
recursion on a fuel that bounds the remaining length. -/
def subAllF (f : Str → Option Nat) (repl : Str) : Nat → Str → Str
  | _, [] => []
  | 0, l => l
  | fuel + 1, c :: cs =>
    match f (c :: cs) with
    | some (n + 1) => repl ++ subAllF f repl fuel (cs.drop n)
    | _ => c :: subAllF f repl fuel cs

def subAll (f : Str → Option Nat) (repl : Str) (l : Str) : Str :=
  subAllF f repl l.length l

/-- Match length of `Page\s+\d+(\s+of\s+\d+)?` (case-insensitive) at the head
of `s`; the optional group and the `\d+`/`\s+` repetitions are greedy. -/
def pageMatchLen (s : Str) : Option Nat :=
  if leadsWithCI (strOf "page") s then
    let r1 := s.drop 4
    let w1 := takeCount isPySpace r1
    if w1 = 0 then none else
    let r2 := r1.drop w1
    let d1 := takeCount isPyDigit r2
    if d1 = 0 then none else
    let base := 4 + w1 + d1
    let r3 := r2.drop d1
    let w2 := takeCount isPySpace r3
    if w2 = 0 then some base else
    if leadsWithCI (strOf "of") (r3.drop w2) then
      let r4 := (r3.drop w2).drop 2
      let w3 := takeCount isPySpace r4
      if w3 = 0 then some base else
      let d2 := takeCount isPyDigit (r4.drop w3)
      if d2 = 0 then some base else some (base + w2 + 2 + w3 + d2)
    else some base
  else none

/-- Match length of `\d+\s*/\s*\d+` at the head of `s`. -/
def slashMatchLen (s : Str) : Option Nat :=
  let d1 := takeCount isPyDigit s
  if d1 = 0 then none else
  let r1 := s.drop d1
  let w1 := takeCount isPySpace r1
  match r1.drop w1 with
  | [] => none
  | c :: r3 =>
    if c = '/' then
      let w2 := takeCount isPySpace r3
      let d2 := takeCount isPyDigit (r3.drop w2)
      if d2 = 0 then none else some (d1 + w1 + 1 + w2 + d2)
    else none

/-- Effect of `re.sub(r'^\d+$', '', text, flags=re.MULTILINE)`: every line made
up solely of digits is emptied (the line itself, now blank, remains). -/
def digitLines (t : Str) : Str :=
  joinNl ((splitNl t).map fun l =>
    if l ≠ [] && l.all isPyDigit then [] else l)

/-- Match length of `Confidential|Resume|CV|Curriculum Vitae` (case-insensitive)
at the head of `s`; alternatives are tried in the pattern's order. -/
def tokenMatchLen (s : Str) : Option Nat :=
  if leadsWithCI (strOf "confidential") s then some 12
  else if leadsWithCI (strOf "resume") s then some 6
  else if leadsWithCI (strOf "cv") s then some 2
  else if leadsWithCI (strOf "curriculum vitae") s then some 16
  else none

def countNl (l : Str) : Nat := l.count '\n'

/-- Suffix of `l` after its last `'\n'` (all of `l` if it has none). -/
def afterLastNl (l : Str) : Str := (l.reverse.takeWhile (fun c => ¬ c = '\n')).reverse

/-- Effect of `re.sub(r'\n\s*\n\s*\n+', '\n\n', text)`.  A match must start at
a `'\n'` and lies inside the maximal whitespace run from that point; it exists
iff the run contains at least 3 newlines, and then (by greedy backtracking)
extends exactly to the run's last newline, being replaced by two newlines. -/
def collapseBlankF : Nat → Str → Str
  | _, [] => []
  | 0, l => l
  | fuel + 1, c :: cs =>
    if c = '\n' then
      let run := cs.takeWhile isPySpace
      let rest := cs.drop run.length
      if 2 ≤ countNl run then
        '\n' :: '\n' :: (afterLastNl run ++ collapseBlankF fuel rest)
      else
        c :: (run ++ collapseBlankF fuel rest)
    else
      c :: collapseBlankF fuel cs

def collapseBlank (l : Str) : Str := collapseBlankF l.length l

/-- Effect of `re.sub(r' +', ' ', text)`. -/
def collapseSpacesF : Nat → Str → Str
  | _, [] => []
  | 0, l => l
  | fuel + 1, c :: cs =>
    if c = ' ' then ' ' :: collapseSpacesF fuel (cs.dropWhile (fun x => x = ' '))
    else c :: collapseSpacesF fuel cs

def collapseSpaces (l : Str) : Str := collapseSpacesF l.length l

/-- Effect of `re.sub(r'\t+', ' ', text)`. -/
def tabsToSpaceF : Nat → Str → Str
  | _, [] => []
  | 0, l => l
  | fuel + 1, c :: cs =>
    if c = '\t' then ' ' :: tabsToSpaceF fuel (cs.dropWhile (fun x => x = '\t'))
    else c :: tabsToSpaceF fuel cs

def tabsToSpace (l : Str) : Str := tabsToSpaceF l.length l

/-- Strip every line: `'\n'.join(line.strip() for line in text.split('\n'))`. -/
def stripLines (t : Str) : Str := joinNl ((splitNl t).map pyStrip)

/-- Embedding of `clean_text` (`parser.py` 287-320): page-number removal,
`\d+/\d+` removal, digit-only-line removal, boilerplate-token removal, blank
line collapsing, space-run collapsing, tab-run replacement, per-line strip,
whole-text strip, in the source's order.  (`if not text: return ""` is the
identity on the empty list.) -/
def clean_text (t : Str) : Str :=
  pyStrip (stripLines (tabsToSpace (collapseSpaces (collapseBlank
    (subAll tokenMatchLen [] (digitLines (subAll slashMatchLen []
      (subAll pageMatchLen [] t))))))))

example : clean_text (strOf "a \tb") = strOf "a  b" := by decide
example : clean_text (clean_text (strOf "a \tb")) = strOf "a b" := by decide
example : clean_text (strOf "  hello   world  \n\n\n\nPage 2 of 5\nbye ") =
    strOf "hello world\n\nbye" := by decide

/-!
## Data model (`backend/models.py`)

Floats (`Experience.years`) are modelled as rationals; optional contact data
as `Option Str`.
-/

/-- Model of a single work-experience role (`models.Role`, lines 33-50). -/
structure Role where
  title : Str
  company : Str
  duration : Str
  description : Str
  is_internship : Bool := false
deriving DecidableEq, Repr

/-- Model of overall work experience (`models.Experience`, lines 53-72). -/
structure Experience where
  years : ℚ := 0
  roles : List Role := []
deriving DecidableEq, Repr

/-- Model of an educational qualification (`models.Education`, lines 75-90). -/
structure Education where
  degree : Str
  field : Str
  institution : Str
  year : Option Int := none
deriving DecidableEq, Repr

/-- Model of a project (`models.Project`, lines 93-106). -/
structure Project where
  name : Str
  technologies : List Str := []
  description : Str
deriving DecidableEq, Repr

/-- Model of a parsed resume (`models.Resume`, lines 109-138). -/
structure Resume where
  name : Str
  email : Option Str := none
  phone : Option Str := none
  skills : List Str := []
  experience : Experience := {}
  education : List Education := []
  projects : List Project := []
  achievements : List Str := []
  extracurricular : List Str := []
  raw_text : Str := []
deriving DecidableEq, Repr

/-- Embedding of `Resume.anonymize` (`models.py` 140-152): a deep copy with
`name = "CANDIDATE"`, `email = None`, `phone = None`; all other fields,
including `raw_text`, are copied unchanged. -/
def Resume.anonymize (r : Resume) : Resume :=
  { r with name := strOf "CANDIDATE", email := none, phone := none }

/-- Embedding of `Resume.is_fresher` (`models.py` 172-183):
`years == 0.0 or (len(roles) > 0 and all(role.is_internship for role in roles))`. -/
def Resume.is_fresher (r : Resume) : Bool :=
  r.experience.years = 0 ||
    (r.experience.roles.length > 0 && r.experience.roles.all (fun role => role.is_internship))

/-- Embedding of `validate_resume` (`parser.py` 86-134): a pure function from
the assembled record to a list of warning strings. -/
def validate_resume (resume : Resume) : List Str :=
  let w0 : List Str := []
  let w1 := if resume.name = [] || resume.name = strOf "Unknown" then
      w0 ++ [strOf "⚠️  Name not detected - consider checking first line of resume"] else w0
  let w2 := if resume.email = none then
      w1 ++ [strOf "⚠️  Email not found - ensure contact info is clearly visible"] else w1
  let w3 := if resume.phone = none then
      w2 ++ [strOf "⚠️  Phone number not found"] else w2
  let w4 := if resume.skills = [] then
      w3 ++ [strOf "⚠️  No skills detected - check if resume has a Skills section"]
    else if resume.skills.length < 3 then
      w3 ++ [strOf "⚠️  Only " ++ strOf (Nat.repr resume.skills.length) ++
        strOf " skill(s) found - may need more comprehensive skills list"] else w3
  let w5 := if resume.experience.years = 0 && resume.experience.roles = [] then
      w4 ++ [strOf "ℹ️  No experience detected - candidate appears to be a fresher"]
    else if resume.experience.years = 0 && resume.experience.roles ≠ [] then
      w4 ++ [strOf "ℹ️  Experience detected but years = 0 - check date parsing"] else w4
  let w6 := if resume.experience.roles ≠ [] &&
      resume.experience.roles.all (fun role => role.is_internship) then
      w5 ++ [strOf "ℹ️  All roles are internships - candidate is likely a fresher"] else w5
  let w7 := if resume.education = [] then
      w6 ++ [strOf "⚠️  No education information found"] else w6
  if resume.skills = [] && resume.experience.roles = [] &&
      resume.education = [] && resume.projects = [] then
    w7 ++ [strOf "❌ CRITICAL: No data extracted - file may be corrupted or format unsupported"]
  else w7

/-!
## A small regular-expression engine

Python's `re` uses leftmost-position, priority-ordered backtracking: greedy
repetition tries the longer match first, alternation tries alternatives left to
right.  The engine below implements exactly those semantics for the constructs
the source's patterns use (character classes, literals with and without
`re.IGNORECASE`, concatenation, alternation, greedy `*`/`+`/`?`/`{n}`, capture
groups, and the `\b` word boundary).
-/

inductive RE where
  | eps
  | cls (p : Char → Bool)
  | lit (cs : Str)
  | litCI (cs : Str)
  | seq (a b : RE)
  | alt (a b : RE)
  | star (r : RE)
  | opt (r : RE)
  | grp (n : Nat) (r : RE)
  | wordB
  | bos

/-- Matcher state: remaining input, previously consumed character (for `\b`),
and captures recorded so far. -/
structure MSt where
  rem : Str
  prev : Option Char
  caps : List (Nat × Str)

/-- Greedy Kleene-star loop: try one more iteration (which must consume at
least one character) before falling back to the continuation.  The fuel is the
remaining length, which bounds the number of iterations. -/
def starLoop (m : MSt → (MSt → Option MSt) → Option MSt) :
    Nat → MSt → (MSt → Option MSt) → Option MSt
  | 0, st, k => k st
  | fuel + 1, st, k =>
    (m st (fun st' => if st'.rem.length < st.rem.length then starLoop m fuel st' k else none))
      <|> k st

/-- Backtracking matcher in continuation-passing style; returns the first
success in Python's priority order. -/
def REmat : RE → MSt → (MSt → Option MSt) → Option MSt
  | .eps, st, k => k st
  | .cls p, st, k =>
    match st.rem with
    | [] => none
    | c :: cs => if p c then k ⟨cs, some c, st.caps⟩ else none
  | .lit cs, st, k =>
    if leadsWith cs st.rem then
      k ⟨st.rem.drop cs.length,
         if cs = [] then st.prev else (st.rem.take cs.length).getLast?, st.caps⟩
    else none
  | .litCI cs, st, k =>
    if leadsWithCI cs st.rem then
      k ⟨st.rem.drop cs.length,
         if cs = [] then st.prev else (st.rem.take cs.length).getLast?, st.caps⟩
    else none
  | .seq a b, st, k => REmat a st (fun st' => REmat b st' k)
  | .alt a b, st, k => (REmat a st k) <|> (REmat b st k)
  | .star r, st, k => starLoop (fun st' k' => REmat r st' k') st.rem.length st k
  | .opt r, st, k => (REmat r st k) <|> k st
  | .grp n r, st, k =>
    REmat r st (fun st' =>
      k { st' with caps := (n, st.rem.take (st.rem.length - st'.rem.length)) :: st'.caps })
  | .wordB, st, k =>
    let lw := match st.prev with | none => false | some c => isWordChar c
    let rw := match st.rem with | [] => false | c :: _ => isWordChar c
    if lw ≠ rw then k st else none
  | .bos, st, k =>
    match st.prev with
    | none => k st
    | some _ => none

def plusRE (r : RE) : RE := .seq r (.star r)

/-- Exactly `n` repetitions, `r{n}`. -/
def reps : Nat → RE → RE
  | 0, _ => .eps
  | n + 1, r => .seq r (reps n r)

/-- Greedy bounded repetition `r{lo,hi}` as `r^lo (r?)^(hi-lo)`. -/
def repRange (lo hi : Nat) (r : RE) : RE := .seq (reps lo r) (reps (hi - lo) (.opt r))

/-- The last assignment of capture group `n` (empty string when the group did
not participate, as in Python's `findall`). -/
def getCap (n : Nat) (caps : List (Nat × Str)) : Str :=
  match caps.find? (fun p => p.1 = n) with
  | some p => p.2
  | none => []

/-- Attempt a match at the current position; on success return the matched
length and the captures. -/
def tryMatch (r : RE) (prev : Option Char) (s : Str) : Option (Nat × List (Nat × Str)) :=
  (REmat r ⟨s, prev, []⟩ some).map fun st => (s.length - st.rem.length, st.caps)

/-- Embedding of `re.findall`: scan left to right, collect non-overlapping
matches, resume after each match.  (All patterns fed to it consume at least
one character, so the zero-length-match bump never triggers.) -/
def findAllF (r : RE) : Nat → Option Char → Str → List (List (Nat × Str))
  | 0, _, _ => []
  | fuel + 1, prev, s =>
    match tryMatch r prev s with
    | some (len + 1, caps) =>
      caps :: findAllF r fuel ((s.take (len + 1)).getLast?) (s.drop (len + 1))
    | _ =>
      match s with
      | [] => []
      | c :: cs => findAllF r fuel (some c) cs

def findAll (r : RE) (s : Str) : List (List (Nat × Str)) := findAllF r (s.length + 1) none s

/-- Embedding of `re.search`: captures of the first (leftmost) match, if any. -/
def searchFirstF (r : RE) : Nat → Option Char → Str → Option (List (Nat × Str))
  | 0, _, _ => none
  | fuel + 1, prev, s =>
    match tryMatch r prev s with
    | some (_, caps) => some caps
    | none =>
      match s with
      | [] => none
      | c :: cs => searchFirstF r fuel (some c) cs

def searchFirst (r : RE) (s : Str) : Option (List (Nat × Str)) :=
  searchFirstF r (s.length + 1) none s

/-- Decision form of `re.search`: does the pattern match anywhere? -/
def hasMatch (r : RE) (s : Str) : Bool := (searchFirst r s).isSome

/-- All non-overlapping match spans `(start, length)` of a pattern, in
scanning order (used for `re.finditer` start positions). -/
def findAllSpansF (r : RE) : Nat → Option Char → Nat → Str → List (Nat × Nat)
  | 0, _, _, _ => []
  | fuel + 1, prev, pos, s =>
    match tryMatch r prev s with
    | some (len + 1, _) =>
      (pos, len + 1) ::
        findAllSpansF r fuel ((s.take (len + 1)).getLast?) (pos + len + 1) (s.drop (len + 1))
    | _ =>
      match s with
      | [] => []
      | c :: cs => findAllSpansF r fuel (some c) (pos + 1) cs

def findAllSpans (r : RE) (s : Str) : List (Nat × Nat) :=
  findAllSpansF r (s.length + 1) none 0 s

/-- Embedding of `re.split` for separator patterns without capture groups:
tokens between non-overlapping matches (empty tokens included). -/
def splitREF (r : RE) : Nat → Option Char → Str → List Str
  | 0, _, s => [s]
  | fuel + 1, prev, s =>
    match tryMatch r prev s with
    | some (len + 1, _) =>
      [] :: splitREF r fuel ((s.take (len + 1)).getLast?) (s.drop (len + 1))
    | _ =>
      match s with
      | [] => [[]]
      | c :: cs =>
        match splitREF r fuel (some c) cs with
        | [] => [[c]]
        | t :: ts => (c :: t) :: ts

def splitRE (r : RE) (s : Str) : List Str := splitREF r (s.length + 1) none s

/-!
## Dates and `parse_dates_and_calculate_years` (`parser.py` 687-732)

`dateutil.parser.parse(s, fuzzy=True)` is embedded for the token shapes the
date patterns can produce (month-name tokens, 4-digit years, 1-2-digit
numbers); unrecognized tokens are ignored (that is what `fuzzy` does), missing
fields are filled from the default date (the current date, `today`), and an
out-of-range resulting day raises, i.e. yields `none`, which the source's
`except: continue` turns into a contribution of zero.
-/

structure Date where
  year : Nat
  month : Nat
  day : Nat
deriving DecidableEq, Repr

def isLeapYear (y : Nat) : Bool := y % 4 = 0 && (y % 100 ≠ 0 || y % 400 = 0)

def daysInMonth (y m : Nat) : Nat :=
  if m = 2 then (if isLeapYear y then 29 else 28)
  else if m = 4 || m = 6 || m = 9 || m = 11 then 30
  else 31

def daysBeforeMonth (y m : Nat) : Nat :=
  (List.range (m - 1)).foldl (fun acc i => acc + daysInMonth y (i + 1)) 0

def daysBeforeYear (y : Nat) : Nat :=
  365 * (y - 1) + (y - 1) / 4 - (y - 1) / 100 + (y - 1) / 400

/-- Day number of a (proleptic Gregorian) date, so that differences of day
numbers equal `(d2 - d1).days` on Python `datetime`s at equal times of day. -/
def toDayNumber (d : Date) : Nat := daysBeforeYear d.year + daysBeforeMonth d.year d.month + d.day

def validDate (d : Date) : Bool :=
  1 ≤ d.month && d.month ≤ 12 && 1 ≤ d.day && d.day ≤ daysInMonth d.year d.month

def monthNames : List (Str × Nat) :=
  [(strOf "jan", 1), (strOf "january", 1), (strOf "feb", 2), (strOf "february", 2),
   (strOf "mar", 3), (strOf "march", 3), (strOf "apr", 4), (strOf "april", 4),
   (strOf "may", 5), (strOf "jun", 6), (strOf "june", 6), (strOf "jul", 7),
   (strOf "july", 7), (strOf "aug", 8), (strOf "august", 8), (strOf "sep", 9),
   (strOf "sept", 9), (strOf "september", 9), (strOf "oct", 10), (strOf "october", 10),
   (strOf "nov", 11), (strOf "november", 11), (strOf "dec", 12), (strOf "december", 12)]

def monthFromToken (t : Str) : Option Nat :=
  (monthNames.find? (fun p => p.1 = lowerStr t)).map (fun p => p.2)

def natOfDigits (t : Str) : Nat := t.foldl (fun a c => 10 * a + (c.toNat - 48)) 0

/-- dateutil's two-digit-year convention: complete with the current century,
then shift by 100 to land within fifty years of the current year. -/
def convertTwoDigitYear (today : Date) (v : Nat) : Nat :=
  let y := v + today.year / 100 * 100
  if today.year + 50 ≤ y then y - 100
  else if y + 50 < today.year then y + 100
  else y

/-- Split on runs of whitespace, discarding empty tokens. -/
def splitWsF : Nat → Str → List Str
  | 0, _ => []
  | _, [] => []
  | fuel + 1, s =>
    let s' := s.dropWhile isPySpace
    match s'.takeWhile (fun c => ¬ isPySpace c) with
    | [] => []
    | tok => tok :: splitWsF fuel (s'.drop tok.length)

def splitWs (s : Str) : List Str := splitWsF (s.length + 1) s

/-- Modelled `dateutil.parser.parse(s, fuzzy=True, default=today-at-midnight)`
for the token shapes produced by the source's date regexes. -/
def dateParseFuzzy (today : Date) (s : Str) : Option Date :=
  let toks := splitWs s
  let step := fun (acc : Option Nat × Option Nat × Option Nat) (t : Str) =>
    let (y?, m?, d?) := acc
    match monthFromToken t with
    | some m => (y?, if m? = none then some m else m?, d?)
    | none =>
      if t ≠ [] && t.all isPyDigit then
        if t.length = 4 then (if y? = none then some (natOfDigits t) else y?, m?, d?)
        else
          let v := natOfDigits t
          if v ≤ 31 then (y?, m?, if d? = none then some v else d?)
          else (if y? = none then some (convertTwoDigitYear today v) else y?, m?, d?)
      else (y?, m?, d?)
  match toks.foldl step (none, none, none) with
  | (none, none, none) => none
  | (y?, m?, d?) =>
    let d : Date := ⟨y?.getD today.year, m?.getD today.month, d?.getD today.day⟩
    if validDate d then some d else none

/-- Python's `round(x, 1)` on our rationals (round to nearest tenth; Python's
float banker's rounding differs only at exact ties, which the embedded
quantities never hit). -/
def pyRound1 (q : ℚ) : ℚ := (⌊10 * q + 1 / 2⌋ : ℚ) / 10

def wsC : RE := .cls isPySpace
def wC : RE := .cls isWordChar
def dC : RE := .cls isPyDigit

/-- The class `[-–to]` under `re.IGNORECASE`. -/
def sepC : RE := .cls (fun c => c = '-' || c = '–' || c = 't' || c = 'o' || c = 'T' || c = 'O')

/-- Date pattern `(\w+\s+\d{4})\s*[-–to]+\s*(\w+\s+\d{4}|present)`. -/
def datePat1 : RE :=
  .seq (.grp 1 (.seq (plusRE wC) (.seq (plusRE wsC) (reps 4 dC))))
    (.seq (.star wsC) (.seq (plusRE sepC) (.seq (.star wsC)
      (.grp 2 (.alt (.seq (plusRE wC) (.seq (plusRE wsC) (reps 4 dC)))
        (.litCI (strOf "present")))))))

/-- Date pattern `(\d{4})\s*[-–to]+\s*(\d{4}|present)`. -/
def datePat2 : RE :=
  .seq (.grp 1 (reps 4 dC))
    (.seq (.star wsC) (.seq (plusRE sepC) (.seq (.star wsC)
      (.grp 2 (.alt (reps 4 dC) (.litCI (strOf "present")))))))

/-- Date pattern `(\w+\s+\d{2})\s*[-–to]+\s*(\w+\s+\d{2}|present)`. -/
def datePat3 : RE :=
  .seq (.grp 1 (.seq (plusRE wC) (.seq (plusRE wsC) (reps 2 dC))))
    (.seq (.star wsC) (.seq (plusRE sepC) (.seq (.star wsC)
      (.grp 2 (.alt (.seq (plusRE wC) (.seq (plusRE wsC) (reps 2 dC)))
        (.litCI (strOf "present")))))))

/-- Contribution of one matched range `(start, end)`:
`max(0, (end - start).days / 365.25)`, or `0` when parsing raises. -/
def yearsOfRange (today : Date) (g1 g2 : Str) : ℚ :=
  match dateParseFuzzy today g1 with
  | none => 0
  | some sd =>
    let ed? := if hasSubCI (strOf "present") g2 then some today else dateParseFuzzy today g2
    match ed? with
    | none => 0
    | some ed =>
      let days : ℤ := (toDayNumber ed : ℤ) - (toDayNumber sd : ℤ)
      max 0 ((days : ℚ) * 4 / 1461)

/-- Embedding of `parse_dates_and_calculate_years` (`parser.py` 687-732): sum
the non-negative year lengths of every date-range match of the three patterns
and round the total to one decimal place.  `today` stands for
`datetime.now()`, which also provides the fuzzy parser's default fields. -/
def parse_dates_and_calculate_years (today : Date) (text : Str) : ℚ :=
  pyRound1 ((([datePat1, datePat2, datePat3].map (fun p =>
    ((findAll p text).map (fun caps =>
      yearsOfRange today (getCap 1 caps) (getCap 2 caps))).sum)).sum))

example : findAll datePat1 (strOf "Jan 2020 - Jan 2022") =
    [[(2, strOf "Jan 2022"), (1, strOf "Jan 2020")]] := by decide

example : dateParseFuzzy ⟨2025, 10, 12⟩ (strOf "Jan 2020") = some ⟨2020, 1, 12⟩ := by decide

/-!
## Experience extraction (`parser.py`, `extract_experience`, lines 735-833)

spaCy's statistical NLP pipeline is external to the repository, so its
entity/token predictions are an oracle parameter.
-/

/-- Oracle for the spaCy model `en_core_web_sm`: `orgsIn s` is the list of
ORG-entity texts of `nlp(s)`, `personIn s` the first PERSON-entity text,
`nounToks s` the texts of NOUN/PROPN-tagged tokens, and `prodOrgEnts s` the
texts of PRODUCT/ORG entities. -/
structure NlpOracle where
  orgsIn : Str → List Str
  personIn : Str → Option Str
  nounToks : Str → List Str
  prodOrgEnts : Str → List Str

/-- Oracle for `difflib.SequenceMatcher`: `simGE a b t` decides
`SequenceMatcher(None, a, b).ratio() >= t`. -/
structure FuzzyOracle where
  simGE : Str → Str → ℚ → Bool

/-- The trivial oracle: no entities, no tokens, never similar. -/
def noNlp : NlpOracle := ⟨fun _ => [], fun _ => none, fun _ => [], fun _ => []⟩

def noFuzzy : FuzzyOracle := ⟨fun _ _ _ => false⟩

/-- Pattern `\bintern\b|\binternship\b` (case-insensitive). -/
def internRE : RE :=
  .alt (.seq .wordB (.seq (.litCI (strOf "intern")) .wordB))
    (.seq .wordB (.seq (.litCI (strOf "internship")) .wordB))

/-- Pattern `\d{4}|Jan|Feb|Mar|Apr|May|Jun|Jul|Aug|Sep|Oct|Nov|Dec|present`
(case-insensitive). -/
def dateLineRE : RE :=
  [.litCI (strOf "jan"), .litCI (strOf "feb"), .litCI (strOf "mar"),
   .litCI (strOf "apr"), .litCI (strOf "may"), .litCI (strOf "jun"),
   .litCI (strOf "jul"), .litCI (strOf "aug"), .litCI (strOf "sep"),
   .litCI (strOf "oct"), .litCI (strOf "nov"), .litCI (strOf "dec"),
   .litCI (strOf "present")].foldl .alt (reps 4 dC)

/-- Pattern `\bat\b|Inc|Corp|Ltd|LLC|Company|Technologies` (case-insensitive). -/
def companyKeyRE : RE :=
  [.litCI (strOf "inc"), .litCI (strOf "corp"), .litCI (strOf "ltd"),
   .litCI (strOf "llc"), .litCI (strOf "company"), .litCI (strOf "technologies")].foldl
    .alt (.seq .wordB (.seq (.litCI (strOf "at")) .wordB))

def isBulletWs (c : Char) : Bool := c = '-' || c = '•' || c = '*' || isPySpace c

/-- Effect of `re.sub(r'^[-•*\s]+', '', s)` (one anchored match, greedy). -/
def dropBulletLead (s : Str) : Str := s.dropWhile isBulletWs

/-- Effect of `re.sub(r'^at\s+', '', s, flags=re.IGNORECASE)`. -/
def stripAtLead (s : Str) : Str :=
  if leadsWithCI (strOf "at") s then
    let r := s.drop 2
    let w := takeCount isPySpace r
    if w = 0 then s else r.drop w
  else s

/-- Effect of `re.sub(r'^[-•*\s]+|^at\s+', '', s, flags=re.IGNORECASE)`:
the alternation is anchored, so at most one alternative fires, the first one
that matches at position 0. -/
def companyLeadClean (s : Str) : Str :=
  match s with
  | [] => []
  | c :: _ => if isBulletWs c then dropBulletLead s else stripAtLead s

/-- Separator `\n\s*\n` used by `re.split` for role/education blocks. -/
def blockSepRE : RE := .seq (.lit (strOf "\n")) (.seq (.star wsC) (.lit (strOf "\n")))

/-- Mutable locals of the per-line loop of `extract_experience`. -/
structure RoleAcc where
  role_title : Str
  company : Str
  duration : Str
  description : Str

/-- One iteration of the `for i, line in enumerate(lines)` loop of
`extract_experience` (`parser.py` 779-806). -/
def roleLineStep (orgCheck : Str → Bool) (lines : List Str) (acc : RoleAcc) (p : Nat × Str) :
    RoleAcc :=
  let i := p.1
  let line := pyStrip p.2
  if hasMatch dateLineRE line then
    let acc1 := { acc with duration := line }
    let acc2 := if 0 < i && acc1.role_title = [] then
        { acc1 with role_title := pyStrip ((lines.get? (i - 1)).getD []) } else acc1
    if 1 < i && acc2.company = [] then
      let potential_company := pyStrip ((lines.get? (i - 2)).getD [])
      if orgCheck potential_company then { acc2 with company := potential_company } else acc2
    else acc2
  else if hasMatch companyKeyRE line then
    if acc.company = [] then { acc with company := pyStrip (stripAtLead line) } else acc
  else if line ≠ [] && acc.role_title = [] then
    { acc with role_title := line }
  else if line ≠ [] && (match line with
      | c :: _ => c = '-' || c = '•' || c = '*'
      | [] => false) then
    { acc with description := acc.description ++ line ++ [' '] }
  else acc

/-- Extracted fields of one role block after the per-line loop and the
cleanups of lines 808-811: stripped/de-bulleted title, cleaned company, the
date line, and the stripped bullet description. -/
def roleFieldsOf (oracle : NlpOracle) (block : Str) : RoleAcc :=
  let lines := splitNl (pyStrip block)
  let company0 := match oracle.orgsIn block with
    | [] => []
    | o :: _ => o
  let acc0 : RoleAcc := ⟨[], company0, [], []⟩
  let acc := lines.enum.foldl (roleLineStep (fun s => oracle.orgsIn s ≠ []) lines) acc0
  { role_title := pyStrip (dropBulletLead acc.role_title)
    company := pyStrip (companyLeadClean acc.company)
    duration := acc.duration
    description := pyStrip acc.description }

/-- Processing of one role block (`parser.py` 756-820): internship flag from a
whole-word `intern`/`internship` match, initial company from the block's first
ORG entity, then the per-line loop, the trailing cleanups, and the emission
guard `if role_title or company` with the `or`-defaults. -/
def parseRoleBlock (oracle : NlpOracle) (block : Str) : Option Role :=
  if pyStrip block = [] then none
  else
    let f := roleFieldsOf oracle block
    if f.role_title ≠ [] || f.company ≠ [] then
      some
        { title := if f.role_title = [] then strOf "Position" else f.role_title
          company := if f.company = [] then strOf "Company" else f.company
          duration := if f.duration = [] then strOf "Duration not specified" else f.duration
          description := if f.description = [] then strOf "No description" else f.description
          is_internship := hasMatch internRE block }
    else none

/-- Embedding of `extract_experience` (`parser.py` 735-833).  The
`parse_dates_and_calculate_years(text)` of line 823 is computed and then
overwritten by the role-based aggregation of lines 826-831, so only the latter
appears.  (The entity lists of lines 749-751 are computed and never used.) -/
def extract_experience (oracle : NlpOracle) (today : Date) (text : Str) : Experience :=
  let role_blocks := splitRE blockSepRE text
  let roles := role_blocks.foldl (fun rs block =>
    match parseRoleBlock oracle block with
    | some role => rs ++ [role]
    | none => rs) []
  let internship_years := ((roles.filter (fun r => r.is_internship)).map
      (fun r => parse_dates_and_calculate_years today r.duration * (1 / 2))).sum
  let professional_years := ((roles.filter (fun r => !r.is_internship)).map
      (fun r => parse_dates_and_calculate_years today r.duration)).sum
  { years := professional_years + internship_years, roles := roles }

/-!
## Achievements and extracurricular activities (`parser.py` 948-1017)
-/

def bulletC : RE := .cls (fun c => c = '-' || c = '•' || c = '*')

/-- Separator `\n\s*[-•*]\s*|\n` used by `re.split` for item lists. -/
def itemSplitRE : RE :=
  .alt (.seq (.lit (strOf "\n")) (.seq (.star wsC) (.seq bulletC (.star wsC))))
    (.lit (strOf "\n"))

/-- Priority cue `\d+%|\d+\+|\d+x|improved|increased|reduced|achieved`
(case-insensitive). -/
def achPriRE : RE :=
  [.seq (plusRE dC) (.lit (strOf "+")), .seq (plusRE dC) (.litCI (strOf "x")),
   .litCI (strOf "improved"), .litCI (strOf "increased"),
   .litCI (strOf "reduced"), .litCI (strOf "achieved")].foldl .alt
    (.seq (plusRE dC) (.lit (strOf "%")))

/-- One iteration of the item loop of `extract_achievements`: skip short items,
strip leading bullets, then `insert(0, ...)` for quantifiable items and
`append` for the rest. -/
def achStep (acc : List Str) (item0 : Str) : List Str :=
  let item1 := pyStrip item0
  if item1 = [] || item1.length < 10 then acc
  else
    let item := dropBulletLead item1
    if hasMatch achPriRE item then item :: acc else acc ++ [item]

/-- Embedding of `extract_achievements` (`parser.py` 948-978). -/
def extract_achievements (text : Str) : List Str :=
  ((splitRE itemSplitRE text).foldl achStep []).take 10

def leadership_keywords : List Str :=
  [strOf "president", strOf "vice president", strOf "treasurer", strOf "secretary",
   strOf "captain", strOf "lead", strOf "head", strOf "founder", strOf "co-founder",
   strOf "volunteer", strOf "mentor", strOf "organizer", strOf "coordinator"]

/-- One iteration of the item loop of `extract_extracurricular`: skip items
shorter than 5, strip leading bullets, then front-insert items containing a
leadership keyword and append the rest. -/
def extraStep (acc : List Str) (item0 : Str) : List Str :=
  let item1 := pyStrip item0
  if item1 = [] || item1.length < 5 then acc
  else
    let item := dropBulletLead item1
    if leadership_keywords.any (fun kw => hasSub kw (lowerStr item)) then item :: acc
    else acc ++ [item]

/-- Embedding of `extract_extracurricular` (`parser.py` 981-1017). -/
def extract_extracurricular (text : Str) : List Str :=
  ((splitRE itemSplitRE text).foldl extraStep []).take 10

/-!
## Skills (`parser.py` 142-251 and 626-679) and contact extraction (582-623)
-/

/-- The static skill taxonomy (`parser.py` 142-208), in source order. -/
def SKILL_TAXONOMY : List (Str × List Str) :=
  [(strOf "python", [strOf "python", strOf "py", strOf "python3", strOf "scripting",
      strOf "python scripting"]),
   (strOf "java", [strOf "java", strOf "j2ee", strOf "java ee", strOf "jdk", strOf "jvm"]),
   (strOf "javascript", [strOf "javascript", strOf "js", strOf "es6", strOf "ecmascript",
      strOf "node"]),
   (strOf "typescript", [strOf "typescript", strOf "ts"]),
   (strOf "c++", [strOf "c++", strOf "cpp", strOf "c plus plus"]),
   (strOf "c#", [strOf "c#", strOf "csharp", strOf "c sharp", strOf ".net"]),
   (strOf "ruby", [strOf "ruby", strOf "rb", strOf "ruby on rails", strOf "rails"]),
   (strOf "go", [strOf "go", strOf "golang"]),
   (strOf "rust", [strOf "rust"]),
   (strOf "php", [strOf "php", strOf "php7", strOf "php8"]),
   (strOf "swift", [strOf "swift", strOf "ios development"]),
   (strOf "kotlin", [strOf "kotlin", strOf "android development"]),
   (strOf "scala", [strOf "scala"]),
   (strOf "r", [strOf "r programming", strOf "r language"]),
   (strOf "html", [strOf "html", strOf "html5", strOf "markup"]),
   (strOf "css", [strOf "css", strOf "css3", strOf "styling", strOf "sass", strOf "less"]),
   (strOf "react", [strOf "react", strOf "reactjs", strOf "react.js"]),
   (strOf "angular", [strOf "angular", strOf "angularjs"]),
   (strOf "vue", [strOf "vue", strOf "vuejs", strOf "vue.js"]),
   (strOf "node.js", [strOf "node", strOf "nodejs", strOf "node.js"]),
   (strOf "express", [strOf "express", strOf "expressjs", strOf "express.js"]),
   (strOf "django", [strOf "django"]),
   (strOf "flask", [strOf "flask"]),
   (strOf "fastapi", [strOf "fastapi", strOf "fast api"]),
   (strOf "spring boot", [strOf "spring", strOf "spring boot", strOf "spring framework"]),
   (strOf "sql", [strOf "sql", strOf "structured query language", strOf "database queries"]),
   (strOf "mongodb", [strOf "mongodb", strOf "mongo", strOf "nosql"]),
   (strOf "postgresql", [strOf "postgresql", strOf "postgres", strOf "psql"]),
   (strOf "mysql", [strOf "mysql"]),
   (strOf "redis", [strOf "redis", strOf "caching"]),
   (strOf "elasticsearch", [strOf "elasticsearch", strOf "elastic search", strOf "elk"]),
   (strOf "dynamodb", [strOf "dynamodb", strOf "dynamo"]),
   (strOf "oracle", [strOf "oracle", strOf "oracle db"]),
   (strOf "aws", [strOf "aws", strOf "amazon web services", strOf "ec2", strOf "s3",
      strOf "lambda"]),
   (strOf "azure", [strOf "azure", strOf "microsoft azure"]),
   (strOf "gcp", [strOf "gcp", strOf "google cloud", strOf "google cloud platform"]),
   (strOf "docker", [strOf "docker", strOf "containerization", strOf "containers"]),
   (strOf "kubernetes", [strOf "kubernetes", strOf "k8s", strOf "container orchestration"]),
   (strOf "jenkins", [strOf "jenkins", strOf "ci/cd", strOf "continuous integration"]),
   (strOf "git", [strOf "git", strOf "version control", strOf "github", strOf "gitlab"]),
   (strOf "terraform", [strOf "terraform", strOf "infrastructure as code", strOf "iac"]),
   (strOf "ansible", [strOf "ansible", strOf "configuration management"]),
   (strOf "machine learning", [strOf "machine learning", strOf "ml",
      strOf "supervised learning", strOf "unsupervised learning"]),
   (strOf "deep learning", [strOf "deep learning", strOf "neural networks", strOf "dl"]),
   (strOf "nlp", [strOf "nlp", strOf "natural language processing", strOf "text processing"]),
   (strOf "computer vision", [strOf "computer vision", strOf "cv", strOf "image processing"]),
   (strOf "tensorflow", [strOf "tensorflow", strOf "tf"]),
   (strOf "pytorch", [strOf "pytorch", strOf "torch"]),
   (strOf "scikit-learn", [strOf "sklearn", strOf "scikit-learn", strOf "scikit learn"]),
   (strOf "agile", [strOf "agile", strOf "agile methodology", strOf "agile development"]),
   (strOf "scrum", [strOf "scrum", strOf "scrum master"]),
   (strOf "devops", [strOf "devops", strOf "dev ops"])]

def upperCh (c : Char) : Char :=
  if 'a' ≤ c && c ≤ 'z' then Char.ofNat (c.toNat - 32) else c

def pyTitleGo : Bool → Str → Str
  | _, [] => []
  | prevAlpha, c :: cs =>
    (if isAsciiAlpha c then (if prevAlpha then lowerCh c else upperCh c) else c) ::
      pyTitleGo (isAsciiAlpha c) cs

/-- Python `str.title()`: uppercase every letter that follows a non-letter,
lowercase the other letters. -/
def pyTitle (s : Str) : Str := pyTitleGo false s

/-- Embedding of `fuzzy_match` (`parser.py` 211-223), via the
`SequenceMatcher` oracle. -/
def fuzzy_match (fz : FuzzyOracle) (text target : Str) (threshold : ℚ) : Bool :=
  fz.simGE (lowerStr text) (lowerStr target) threshold

/-- Embedding of `semantic_skill_matcher` (`parser.py` 226-251): for each
canonical skill, the first variant that is a substring of the lowered text or
fuzzy-matches it (threshold 0.85) adds `canonical.title()` and breaks. -/
def semantic_skill_matcher (fz : FuzzyOracle) (text : Str) : List Str :=
  let text_lower := lowerStr text
  SKILL_TAXONOMY.foldl (fun acc p =>
    match p.2.find? (fun variant =>
        hasSub variant text_lower || fuzzy_match fz variant text_lower (17 / 20)) with
    | some _ => acc ++ [pyTitle p.1]
    | none => acc) []

/-- Effect of `re.sub` over a pattern given by the engine (tracking the
previous character for `\b`). -/
def reSubAllF (r : RE) (repl : Str) : Nat → Option Char → Str → Str
  | 0, _, s => s
  | fuel + 1, prev, s =>
    match tryMatch r prev s with
    | some (len + 1, _) =>
      repl ++ reSubAllF r repl fuel ((s.take (len + 1)).getLast?) (s.drop (len + 1))
    | _ =>
      match s with
      | [] => []
      | c :: cs => c :: reSubAllF r repl fuel (some c) cs

def reSubAll (r : RE) (repl : Str) (s : Str) : Str := reSubAllF r repl (s.length + 1) none s

/-- Lead-in pattern
`(?:proficient in|experienced with|familiar with|knowledge of|expertise in)[\s:]+`
(case-insensitive). -/
def fillerRE : RE :=
  .seq ([.litCI (strOf "experienced with"), .litCI (strOf "familiar with"),
      .litCI (strOf "knowledge of"), .litCI (strOf "expertise in")].foldl .alt
      (.litCI (strOf "proficient in")))
    (plusRE (.cls (fun c => isPySpace c || c = ':')))

/-- Delimiter `[,•|/\n]+` for the skills item split. -/
def skillDelimRE : RE :=
  plusRE (.cls (fun c => c = ',' || c = '•' || c = '|' || c = '/' || c = '\n'))

/-- Lexicographic (code-point) order on strings, Python's `sorted` order. -/
def strLe : Str → Str → Bool
  | [], _ => true
  | _ :: _, [] => false
  | a :: as', b :: bs => if a = b then strLe as' bs else decide (a < b)

def insertOrd (x : Str) : List Str → List Str
  | [] => [x]
  | y :: ys => if strLe x y then x :: y :: ys else y :: insertOrd x ys

/-- Insertion sort by `strLe` (the result of Python's `sorted`). -/
def sortStr (l : List Str) : List Str := l.foldr insertOrd []

/-- Embedding of `extract_skills` (`parser.py` 626-679): filler removal, the
taxonomy/fuzzy matcher on the whole text, the delimiter-split item scan with
the POS-tag fallback, the PRODUCT/ORG entity scan, then
`sorted(list(found_skills))` (the set becomes a sorted duplicate-free list). -/
def extract_skills (oracle : NlpOracle) (fz : FuzzyOracle) (text0 : Str) : List Str :=
  let text := reSubAll fillerRE [] text0
  let s1 := semantic_skill_matcher fz text
  let items := splitRE skillDelimRE text
  let s2 := items.foldl (fun acc item0 =>
    let item1 := pyStrip item0
    if item1 = [] || item1.length < 2 || 50 < item1.length then acc
    else
      let item := dropBulletLead item1
      let acc1 := acc ++ semantic_skill_matcher fz item
      if item.length < 30 then
        (oracle.nounToks item).foldl (fun a tok =>
          if 2 < tok.length then
            let token_skills := semantic_skill_matcher fz tok
            if token_skills ≠ [] then a ++ token_skills else a
          else a) acc1
      else acc1) s1
  let s3 := (oracle.prodOrgEnts text).foldl (fun a ent =>
    a ++ semantic_skill_matcher fz ent) s2
  sortStr s3.dedup

/-- Embedding of `extract_name` (`parser.py` 596-623): first line if it is
short, free of `@`/`:`/digits and not a resume/CV header, else the first
PERSON entity of the first 500 characters, else the empty string. -/
def extract_name (oracle : NlpOracle) (text : Str) : Str :=
  let lines := splitNl text
  let first_line := pyStrip (lines.headD [])
  if first_line ≠ [] && first_line.length < 50 &&
      !hasMatch (.cls (fun c => c = '@' || c = ':' || isPyDigit c)) first_line &&
      !(leadsWithCI (strOf "resume") first_line || leadsWithCI (strOf "cv") first_line ||
        leadsWithCI (strOf "curriculum") first_line) then
    first_line
  else
    match oracle.personIn (text.take 500) with
    | some n => n
    | none => []

/-- Email pattern `\b[A-Za-z0-9._%+-]+@[A-Za-z0-9.-]+\.[A-Z|a-z]{2,}\b`. -/
def emailRE : RE :=
  .seq .wordB (.seq
    (plusRE (.cls (fun c => isAsciiAlpha c || isPyDigit c || c = '.' || c = '_' ||
      c = '%' || c = '+' || c = '-')))
    (.seq (.lit (strOf "@"))
      (.seq (plusRE (.cls (fun c => isAsciiAlpha c || isPyDigit c || c = '.' || c = '-')))
        (.seq (.lit (strOf "."))
          (.seq (.seq (reps 2 (.cls (fun c => isAsciiAlpha c || c = '|')))
            (.star (.cls (fun c => isAsciiAlpha c || c = '|')))) .wordB)))))

/-- Embedding of `extract_email` (`parser.py` 582-586). -/
def extract_email (text : Str) : Option Str :=
  (searchFirst (.grp 0 emailRE) text).map (getCap 0)

def phoneSepC : RE := .cls (fun c => c = '-' || c = '.' || isPySpace c)

/-- Phone pattern `(\+?\d{1,3}[-.\s]?)?\(?\d{3}\)?[-.\s]?\d{3}[-.\s]?\d{4}`. -/
def phoneRE : RE :=
  .seq (.opt (.grp 1 (.seq (.opt (.lit (strOf "+")))
      (.seq (repRange 1 3 dC) (.opt phoneSepC)))))
    (.seq (.opt (.lit (strOf "(")))
      (.seq (reps 3 dC)
        (.seq (.opt (.lit (strOf ")")))
          (.seq (.opt phoneSepC)
            (.seq (reps 3 dC) (.seq (.opt phoneSepC) (reps 4 dC)))))))

/-- Embedding of `extract_phone` (`parser.py` 589-593). -/
def extract_phone (text : Str) : Option Str :=
  (searchFirst (.grp 0 phoneRE) text).map (getCap 0)

/-!
## Education (`parser.py` 836-894) and projects (`parser.py` 897-945)
-/

/-- An ASCII apostrophe (written numerically). -/
def apoCh : Char := Char.ofNat 39

def optDot : RE := .opt (.lit (strOf "."))

def fieldCls : RE := .cls (fun c => isAsciiAlpha c || isPySpace c || c = '&')

/-- Degree pattern
`(Bachelor'?s?|B\.?Tech|B\.?E\.?|B\.?S\.?|B\.?A\.?|BSc|BA)\s*(?:of|in|degree in)?\s*([A-Za-z\s&]+)`
(case-insensitive). -/
def degreeBachelorRE : RE :=
  .seq (.grp 1 ([.seq (.litCI (strOf "b")) (.seq optDot (.litCI (strOf "tech"))),
      .seq (.litCI (strOf "b")) (.seq optDot (.seq (.litCI (strOf "e")) optDot)),
      .seq (.litCI (strOf "b")) (.seq optDot (.seq (.litCI (strOf "s")) optDot)),
      .seq (.litCI (strOf "b")) (.seq optDot (.seq (.litCI (strOf "a")) optDot)),
      .litCI (strOf "bsc"), .litCI (strOf "ba")].foldl .alt
      (.seq (.litCI (strOf "bachelor")) (.seq (.opt (.lit [apoCh])) (.opt (.litCI (strOf "s")))))))
    (.seq (.star wsC) (.seq (.opt ([.litCI (strOf "in"),
      .litCI (strOf "degree in")].foldl .alt (.litCI (strOf "of"))))
      (.seq (.star wsC) (.grp 2 (plusRE fieldCls)))))

/-- Degree pattern for the Master family (same shape as the Bachelor one). -/
def degreeMasterRE : RE :=
  .seq (.grp 1 ([.seq (.litCI (strOf "m")) (.seq optDot (.litCI (strOf "tech"))),
      .seq (.litCI (strOf "m")) (.seq optDot (.seq (.litCI (strOf "e")) optDot)),
      .seq (.litCI (strOf "m")) (.seq optDot (.seq (.litCI (strOf "s")) optDot)),
      .seq (.litCI (strOf "m")) (.seq optDot (.seq (.litCI (strOf "a")) optDot)),
      .litCI (strOf "mba"), .litCI (strOf "msc"), .litCI (strOf "ma")].foldl .alt
      (.seq (.litCI (strOf "master")) (.seq (.opt (.lit [apoCh])) (.opt (.litCI (strOf "s")))))))
    (.seq (.star wsC) (.seq (.opt ([.litCI (strOf "in"),
      .litCI (strOf "degree in")].foldl .alt (.litCI (strOf "of"))))
      (.seq (.star wsC) (.grp 2 (plusRE fieldCls)))))

/-- Degree pattern `(Ph\.?D\.?|Doctorate)\s*(?:of|in)?\s*([A-Za-z\s&]+)`. -/
def degreePhdRE : RE :=
  .seq (.grp 1 (.alt (.seq (.litCI (strOf "ph")) (.seq optDot (.seq (.litCI (strOf "d")) optDot)))
      (.litCI (strOf "doctorate"))))
    (.seq (.star wsC) (.seq (.opt (.alt (.litCI (strOf "of")) (.litCI (strOf "in"))))
      (.seq (.star wsC) (.grp 2 (plusRE fieldCls)))))

/-- Degree pattern `(Associate'?s?|A\.?S\.?|A\.?A\.?)\s*(?:of|in)?\s*([A-Za-z\s&]+)`. -/
def degreeAssocRE : RE :=
  .seq (.grp 1 ([.seq (.litCI (strOf "a")) (.seq optDot (.seq (.litCI (strOf "s")) optDot)),
      .seq (.litCI (strOf "a")) (.seq optDot (.seq (.litCI (strOf "a")) optDot))].foldl .alt
      (.seq (.litCI (strOf "associate")) (.seq (.opt (.lit [apoCh])) (.opt (.litCI (strOf "s")))))))
    (.seq (.star wsC) (.seq (.opt (.alt (.litCI (strOf "of")) (.litCI (strOf "in"))))
      (.seq (.star wsC) (.grp 2 (plusRE fieldCls)))))

def degree_patterns : List RE :=
  [degreeBachelorRE, degreeMasterRE, degreePhdRE, degreeAssocRE]

def isAsciiUpper (c : Char) : Bool := 'A' ≤ c && c ≤ 'Z'

/-- Institution pattern
`([A-Z][A-Za-z\s,&]+(?:University|College|Institute|School)[A-Za-z\s,]*)`
(case-sensitive, unlike the degree patterns). -/
def instRE : RE :=
  .grp 1 (.seq (.cls isAsciiUpper)
    (.seq (plusRE (.cls (fun c => isAsciiAlpha c || isPySpace c || c = ',' || c = '&')))
      (.seq ([.lit (strOf "College"), .lit (strOf "Institute"),
          .lit (strOf "School")].foldl .alt (.lit (strOf "University")))
        (.star (.cls (fun c => isAsciiAlpha c || isPySpace c || c = ','))))))

/-- Year pattern `\b(19|20)\d{2}\b`; the whole match (group 0) is used. -/
def eduYearRE : RE :=
  .grp 0 (.seq .wordB (.seq (.alt (.lit (strOf "19")) (.lit (strOf "20")))
    (.seq (reps 2 dC) .wordB)))

def firstPatMatch : List RE → Str → Option (List (Nat × Str))
  | [], _ => none
  | p :: ps, s =>
    match searchFirst p s with
    | some caps => some caps
    | none => firstPatMatch ps s

/-- Embedding of `extract_education` (`parser.py` 836-894). -/
def extract_education (text : Str) : List Education :=
  (splitRE blockSepRE text).foldl (fun acc block =>
    if pyStrip block = [] then acc
    else
      let degFld := firstPatMatch degree_patterns block
      let degree := match degFld with
        | some caps => pyStrip (getCap 1 caps)
        | none => []
      let field := match degFld with
        | some caps => pyStrip (getCap 2 caps)
        | none => []
      let institution := match searchFirst instRE block with
        | some caps => pyStrip (getCap 1 caps)
        | none => []
      let year : Option Int := match searchFirst eduYearRE block with
        | some caps => some (natOfDigits (getCap 0 caps) : Int)
        | none => none
      if degree ≠ [] || institution ≠ [] then
        acc ++ [{ degree := if degree = [] then strOf "Degree" else degree
                  field := if field = [] then strOf "Field of study" else field
                  institution := if institution = [] then strOf "Institution" else institution
                  year := year }]
      else acc) []

/-- Separator `\n\s*[-•*]\s*|\n\s*\n` for project blocks. -/
def projSplitRE : RE :=
  .alt (.seq (.lit (strOf "\n")) (.seq (.star wsC) (.seq bulletC (.star wsC)))) blockSepRE

/-- Parenthetical pattern `\(([^)]+)\)`. -/
def parenRE : RE :=
  .seq (.lit (strOf "(")) (.seq (.grp 1 (plusRE (.cls (fun c => ¬ c = ')')))) (.lit (strOf ")")))

def techDelimRE : RE := plusRE (.cls (fun c => c = ',' || c = '/' || c = '|'))

/-- Embedding of `extract_projects` (`parser.py` 897-945).  Python turns the
technology list into a `set` before truncation; sets iterate in an unspecified
order, which we pin to first-occurrence order (`dedup`). -/
def extract_projects (oracle : NlpOracle) (fz : FuzzyOracle) (text : Str) : List Project :=
  (splitRE projSplitRE text).foldl (fun acc block =>
    let bs := pyStrip block
    if bs = [] || bs.length < 20 then acc
    else
      let lines := splitNl bs
      let project_name := dropBulletLead (pyStrip (lines.headD []))
      let parenTechs := match searchFirst parenRE block with
        | some caps =>
          ((splitRE techDelimRE (getCap 1 caps)).map pyStrip).filter (fun t => t ≠ [])
        | none => []
      let tech_keywords := extract_skills oracle fz block
      let technologies := (parenTechs ++ tech_keywords).dedup
      let description0 := if 1 < lines.length then
          pyStrip (List.intercalate [' '] (lines.drop 1)) else block
      let description := pyStrip (reSubAll (.seq (.lit (strOf "("))
        (.seq (plusRE (.cls (fun c => ¬ c = ')'))) (.lit (strOf ")")))) [] description0)
      if project_name ≠ [] then
        acc ++ [{ name := project_name.take 100
                  technologies := technologies.take 10
                  description := description.take 500 }]
      else acc) []

/-!
## Section detection (`parser.py` 528-579) and the parse pipeline (1020-1174)
-/

/-- Wrap a header alternation into `(?:^|\n)\s*(?:...)[:\-]?\s*\n`. -/
def mkHdrRE (alts : RE) : RE :=
  .seq (.alt .bos (.lit (strOf "\n")))
    (.seq (.star wsC) (.seq alts (.seq (.opt (.cls (fun c => c = ':' || c = '-')))
      (.seq (.star wsC) (.lit (strOf "\n"))))))

/-- The ordered section-pattern table of `detect_sections`. -/
def section_patterns : List (Str × RE) :=
  [(strOf "skills", mkHdrRE ([.seq (.litCI (strOf "technical skill")) (.opt (.litCI (strOf "s"))),
      .litCI (strOf "core competencies"), .litCI (strOf "expertise")].foldl .alt
      (.seq (.litCI (strOf "skill")) (.opt (.litCI (strOf "s")))))),
   (strOf "experience", mkHdrRE ([.litCI (strOf "work experience"), .litCI (strOf "employment"),
      .litCI (strOf "professional experience")].foldl .alt (.litCI (strOf "experience")))),
   (strOf "education", mkHdrRE ([.litCI (strOf "academic"),
      .litCI (strOf "qualification")].foldl .alt (.litCI (strOf "education")))),
   (strOf "projects", mkHdrRE ([.seq (.litCI (strOf "personal project")) (.opt (.litCI (strOf "s"))),
      .seq (.litCI (strOf "academic project")) (.opt (.litCI (strOf "s")))].foldl .alt
      (.seq (.litCI (strOf "project")) (.opt (.litCI (strOf "s")))))),
   (strOf "achievements", mkHdrRE ([.seq (.litCI (strOf "accomplishment")) (.opt (.litCI (strOf "s"))),
      .seq (.litCI (strOf "award")) (.opt (.litCI (strOf "s"))),
      .seq (.litCI (strOf "honor")) (.opt (.litCI (strOf "s")))].foldl .alt
      (.seq (.litCI (strOf "achievement")) (.opt (.litCI (strOf "s")))))),
   (strOf "extracurricular", mkHdrRE ([.litCI (strOf "activities"), .litCI (strOf "leadership"),
      .seq (.litCI (strOf "volunteerin")) (.opt (.litCI (strOf "g"))),
      .litCI (strOf "community")].foldl .alt
      (.seq (.litCI (strOf "extra"))
        (.seq (.opt (.cls (fun c => c = '-' || c = ' '))) (.litCI (strOf "curricular"))))))]

/-- Python tuple order on `(position, section name)` pairs. -/
def posNameLe (a b : Nat × Str) : Bool :=
  a.1 < b.1 || (a.1 = b.1 && strLe a.2 b.2)

def insertPosName (x : Nat × Str) : List (Nat × Str) → List (Nat × Str)
  | [] => [x]
  | y :: ys => if posNameLe x y then x :: y :: ys else y :: insertPosName x ys

def sortPosName (l : List (Nat × Str)) : List (Nat × Str) := l.foldr insertPosName []

/-- Section body extraction: from each header start to the next header start
(or end of text), stripped, with the header line removed. -/
def sectionSlices (text : Str) : List (Nat × Str) → List (Str × Str)
  | [] => []
  | (start, nm) :: rest =>
    let endPos := match rest with
      | [] => text.length
      | (s2, _) :: _ => s2
    let content0 := pyStrip ((text.drop start).take (endPos - start))
    let lines := splitNl content0
    let content := if 1 < lines.length then pyStrip (joinNl lines.tail) else content0
    (nm, content) :: sectionSlices text rest

/-- Embedding of `detect_sections` (`parser.py` 528-579): all header matches of
all six patterns, sorted by `(position, name)`, each section's body running to
the next header; the result list preserves that order, and a later entry for
the same name overwrites an earlier one on lookup. -/
def detect_sections (text : Str) : List (Str × Str) :=
  let positions := (section_patterns.map (fun p =>
    (findAllSpans p.2 text).map (fun sp => (sp.1, p.1)))).flatten
  sectionSlices text (sortPosName positions)

/-- Python `sections.get(name, default)` under last-write-wins dict semantics. -/
def sectionGet (sections : List (Str × Str)) (name : Str) (default : Str) : Str :=
  match sections.reverse.find? (fun p => p.1 = name) with
  | some p => p.2
  | none => default

/-- Error taxonomy of the pipeline: `FileReadError` and `ValidationError`
(both subclasses of `ParserError`; no other kind is reachable in the model). -/
inductive PErrKind where
  | fileRead
  | validation
deriving DecidableEq, Repr

/-- Abstraction of a text file on disk: its byte size and its decoding under
each attempted encoding (`None` = `UnicodeDecodeError`). -/
structure TextFile where
  size : Nat
  utf8 : Option Str
  latin1 : Option Str
  cp1252 : Option Str

/-- The `for encoding in encodings` loop of `read_text_file`: the first
encoding that decodes to a non-empty string wins. -/
def firstGoodDecode : List (Option Str) → Option Str
  | [] => none
  | some t :: rest => if t ≠ [] then some t else firstGoodDecode rest
  | none :: rest => firstGoodDecode rest

/-- Embedding of `read_text_file` (`parser.py` 403-458): `FileReadError` on a
zero-byte file, otherwise the cleaned text of the first successful non-empty
decode, otherwise `FileReadError` (undecodable). -/
def read_text_file (f : TextFile) : Except PErrKind Str :=
  if f.size = 0 then .error .fileRead
  else
    match firstGoodDecode [f.utf8, f.latin1, f.cp1252] with
    | some t => .ok (clean_text t)
    | none => .error .fileRead

/-- Embedding of the post-read part of `parse_resume_to_model` (`parser.py`
1047-1166): the minimum-length validation, section detection, the per-field
extraction with the skills extractor falling back to the full text and every
other extractor falling back to the empty string, assembly of the record, and
the call to `validate_resume`, whose returned warning list is discarded. -/
def parse_from_text (oracle : NlpOracle) (fz : FuzzyOracle) (today : Date) (text : Str) :
    Except PErrKind Resume :=
  if text = [] || (pyStrip text).length < 50 then .error .validation
  else
    let sections := detect_sections text
    let name0 := extract_name oracle text
    let name := if name0 = [] then strOf "Unknown" else name0
    let email := extract_email text
    let phone := extract_phone text
    let skills := extract_skills oracle fz (sectionGet sections (strOf "skills") text)
    let experience0 := extract_experience oracle today (sectionGet sections (strOf "experience") [])
    let experience := if experience0.roles = [] then { years := 0, roles := [] } else experience0
    let education := extract_education (sectionGet sections (strOf "education") [])
    let projects := extract_projects oracle fz (sectionGet sections (strOf "projects") [])
    let achievements := extract_achievements (sectionGet sections (strOf "achievements") [])
    let extracurricular :=
      extract_extracurricular (sectionGet sections (strOf "extracurricular") [])
    let resume : Resume :=
      { name := name, email := email, phone := phone, skills := skills,
        experience := experience, education := education, projects := projects,
        achievements := achievements, extracurricular := extracurricular, raw_text := text }
    let _warnings := validate_resume resume
    .ok resume

/-- Embedding of `parse_resume_to_model` on a text file: read (file-level
errors propagate), then parse. -/
def parse_resume_to_model (oracle : NlpOracle) (fz : FuzzyOracle) (today : Date)
    (f : TextFile) : Except PErrKind Resume :=
  match read_text_file f with
  | .error e => .error e
  | .ok text => parse_from_text oracle fz today text

deriving instance DecidableEq for Except

/-!
## Theorems
-/

/-- C2: for every Resume record, `is_fresher()` returns true exactly when
`experience.years` equals 0.0, or when the role list is non-empty and every
role has `is_internship = true` (even if the summed years is nonzero);
otherwise it returns false. -/
theorem is_fresher_iff_zero_years_or_all_internships (r : Resume) :
    r.is_fresher = true ↔
      (r.experience.years = 0 ∨
        (r.experience.roles ≠ [] ∧ ∀ role ∈ r.experience.roles, role.is_internship = true)) := by
  simp [Resume.is_fresher, List.all_eq_true, List.length_pos]

/-- A concrete resume used as test data in several counterexamples. -/
def resumeX : Resume :=
  { name := strOf "Jane Roe", email := some (strOf "jane@example.com"),
    phone := some (strOf "555-123-4567"), raw_text := strOf "Jane Roe, 555-123-4567" }

/-- The same record with only the raw text changed. -/
def resumeY : Resume := { resumeX with raw_text := [] }

/-- C9 counterexample: `resumeX` and `resumeY` differ only in `raw_text`, yet
their anonymized copies differ, because `anonymize` does not redact the raw
text. -/
theorem anonymize_keeps_raw_text_counterexample :
    resumeX.name = resumeY.name ∧ resumeX.email = resumeY.email ∧
    resumeX.phone = resumeY.phone ∧ resumeX.skills = resumeY.skills ∧
    resumeX.experience = resumeY.experience ∧ resumeX.education = resumeY.education ∧
    resumeX.projects = resumeY.projects ∧ resumeX.achievements = resumeY.achievements ∧
    resumeX.extracurricular = resumeY.extracurricular ∧
    resumeX.anonymize ≠ resumeY.anonymize := by
  refine ⟨rfl, rfl, rfl, rfl, rfl, rfl, rfl, rfl, rfl, fun h => ?_⟩
  have h2 := congrArg Resume.raw_text h
  simp only [Resume.anonymize, resumeX, resumeY] at h2
  exact absurd h2 (by decide)

/-- C9 amended: `anonymize()` returns a copy in which name, email and phone
are redacted (name becomes "CANDIDATE", email and phone become `None`) while
every other field, including `raw_text`, is copied unchanged; consequently any
two records that differ only in name, email and phone produce identical
anonymized copies. -/
theorem anonymize_redacts_contact_fields (r r' : Resume)
    (hsk : r.skills = r'.skills) (hex : r.experience = r'.experience)
    (hed : r.education = r'.education) (hpr : r.projects = r'.projects)
    (hac : r.achievements = r'.achievements) (hec : r.extracurricular = r'.extracurricular)
    (hrw : r.raw_text = r'.raw_text) :
    r.anonymize = r'.anonymize ∧
    r.anonymize.name = strOf "CANDIDATE" ∧ r.anonymize.email = none ∧
    r.anonymize.phone = none ∧ r.anonymize.raw_text = r.raw_text ∧
    r.anonymize.skills = r.skills ∧ r.anonymize.experience = r.experience ∧
    r.anonymize.education = r.education ∧ r.anonymize.projects = r.projects ∧
    r.anonymize.achievements = r.achievements ∧
    r.anonymize.extracurricular = r.extracurricular := by
  cases r
  cases r'
  simp_all [Resume.anonymize]

/-- A record differing from `resumeX` only in the three contact fields. -/
def resumeZ : Resume :=
  { resumeX with name := strOf "John Doe", email := none, phone := some (strOf "000") }

/-- Witness for the amended C9 theorem at concrete records. -/
theorem anonymize_redacts_contact_fields_witness :
    resumeX.anonymize = resumeZ.anonymize ∧
    resumeX.anonymize.name = strOf "CANDIDATE" ∧ resumeX.anonymize.email = none ∧
    resumeX.anonymize.phone = none ∧ resumeX.anonymize.raw_text = resumeX.raw_text ∧
    resumeX.anonymize.skills = resumeX.skills ∧
    resumeX.anonymize.experience = resumeX.experience ∧
    resumeX.anonymize.education = resumeX.education ∧
    resumeX.anonymize.projects = resumeX.projects ∧
    resumeX.anonymize.achievements = resumeX.achievements ∧
    resumeX.anonymize.extracurricular = resumeX.extracurricular :=
  anonymize_redacts_contact_fields resumeX resumeZ rfl rfl rfl rfl rfl rfl rfl


def stepOf (proc : Str → Option (Str × Bool)) (acc : List Str) (item0 : Str) : List Str :=
  match proc item0 with
  | none => acc
  | some (it, true) => it :: acc
  | some (it, false) => acc ++ [it]

def procAch (item0 : Str) : Option (Str × Bool) :=
  let item1 := pyStrip item0
  if item1 = [] || item1.length < 10 then none
  else
    let item := dropBulletLead item1
    some (item, hasMatch achPriRE item)

def procExtra (item0 : Str) : Option (Str × Bool) :=
  let item1 := pyStrip item0
  if item1 = [] || item1.length < 5 then none
  else
    let item := dropBulletLead item1
    some (item, leadership_keywords.any (fun kw => hasSub kw (lowerStr item)))

theorem achStep_eq_stepOf : achStep = stepOf procAch := by
  funext acc item0
  simp only [achStep, stepOf, procAch]
  by_cases h : pyStrip item0 = [] || (pyStrip item0).length < 10
  · simp [h]
  · simp only [h, if_false, Bool.false_eq_true]
    cases h2 : hasMatch achPriRE (dropBulletLead (pyStrip item0)) <;> simp

theorem extraStep_eq_stepOf : extraStep = stepOf procExtra := by
  funext acc item0
  simp only [extraStep, stepOf, procExtra]
  by_cases h : pyStrip item0 = [] || (pyStrip item0).length < 5
  · simp [h]
  · simp only [h, if_false, Bool.false_eq_true]
    cases h2 : leadership_keywords.any
        (fun kw => hasSub kw (lowerStr (dropBulletLead (pyStrip item0)))) <;> simp [h2]

def parsedOf (proc : Str → Option (Str × Bool)) (items : List Str) : List Str :=
  items.filterMap (fun i => (proc i).map Prod.fst)

def priOf (proc : Str → Option (Str × Bool)) (items : List Str) : List Str :=
  items.filterMap (fun i => match proc i with | some (it, true) => some it | _ => none)

def nonPriOf (proc : Str → Option (Str × Bool)) (items : List Str) : List Str :=
  items.filterMap (fun i => match proc i with | some (it, false) => some it | _ => none)

theorem foldl_stepOf (proc : Str → Option (Str × Bool)) (items : List Str) (R N : List Str) :
    items.foldl (stepOf proc) (R ++ N) =
      (priOf proc items).reverse ++ R ++ (N ++ nonPriOf proc items) := by
  induction items generalizing R N with
  | nil => simp [priOf, nonPriOf]
  | cons i rest ih =>
    simp only [List.foldl_cons, stepOf, priOf, nonPriOf, List.filterMap_cons]
    cases h : proc i with
    | none => simpa [priOf, nonPriOf] using ih R N
    | some p =>
      obtain ⟨it, b⟩ := p
      cases b with
      | true =>
        dsimp only
        have hx := ih (it :: R) N
        simp only [priOf, nonPriOf] at hx
        rw [← List.cons_append, hx]
        simp [List.append_assoc]
      | false =>
        dsimp only
        have hx := ih R (N ++ [it])
        simp only [priOf, nonPriOf] at hx
        rw [List.append_assoc, hx]
        simp [List.append_assoc]

theorem priOf_eq_filter (proc : Str → Option (Str × Bool)) (pri : Str → Bool)
    (hp : ∀ i it b, proc i = some (it, b) → b = pri it) (items : List Str) :
    priOf proc items = (parsedOf proc items).filter pri ∧
    nonPriOf proc items = (parsedOf proc items).filter (fun i => !pri i) := by
  induction items with
  | nil => simp [priOf, nonPriOf, parsedOf]
  | cons i rest ih =>
    simp only [priOf, nonPriOf, parsedOf, List.filterMap_cons] at ih ⊢
    cases h : proc i with
    | none => simpa using ih
    | some p =>
      obtain ⟨it, b⟩ := p
      have hb := hp i it b h
      subst hb
      cases hpri : pri it with
      | true => simp [hpri, List.filter_cons, ih.1, ih.2]
      | false => simp [hpri, List.filter_cons, ih.1, ih.2]


theorem extract_achievements_eq_take (text : Str) :
    extract_achievements text =
      (((parsedOf procAch (splitRE itemSplitRE text)).filter
          (fun i => hasMatch achPriRE i)).reverse ++
        (parsedOf procAch (splitRE itemSplitRE text)).filter
          (fun i => !hasMatch achPriRE i)).take 10 := by
  have hp : ∀ i it b, procAch i = some (it, b) → b = hasMatch achPriRE it := by
    intro i it b h
    simp only [procAch] at h
    split at h
    · exact absurd h (by simp)
    · simp only [Option.some.injEq, Prod.mk.injEq] at h
      rw [← h.2, h.1]
  have h0 := foldl_stepOf procAch (splitRE itemSplitRE text) [] []
  simp only [List.append_nil, List.nil_append] at h0
  have h1 := priOf_eq_filter procAch (fun i => hasMatch achPriRE i) hp (splitRE itemSplitRE text)
  unfold extract_achievements
  rw [achStep_eq_stepOf, h0, h1.1, h1.2]

theorem extract_extracurricular_eq_take (text : Str) :
    extract_extracurricular text =
      (((parsedOf procExtra (splitRE itemSplitRE text)).filter
          (fun i => leadership_keywords.any (fun kw => hasSub kw (lowerStr i)))).reverse ++
        (parsedOf procExtra (splitRE itemSplitRE text)).filter
          (fun i => !leadership_keywords.any (fun kw => hasSub kw (lowerStr i)))).take 10 := by
  have hp : ∀ i it b, procExtra i = some (it, b) →
      b = leadership_keywords.any (fun kw => hasSub kw (lowerStr it)) := by
    intro i it b h
    simp only [procExtra] at h
    split at h
    · exact absurd h (by simp)
    · simp only [Option.some.injEq, Prod.mk.injEq] at h
      rw [← h.2, h.1]
  have h0 := foldl_stepOf procExtra (splitRE itemSplitRE text) [] []
  simp only [List.append_nil, List.nil_append] at h0
  have h1 := priOf_eq_filter procExtra
    (fun i => leadership_keywords.any (fun kw => hasSub kw (lowerStr i))) hp
    (splitRE itemSplitRE text)
  unfold extract_extracurricular
  rw [extraStep_eq_stepOf, h0, h1.1, h1.2]

theorem reorder_perm_of_le (pri : Str → Bool) (parsed out : List Str)
    (hout : out = ((parsed.filter pri).reverse ++ parsed.filter (fun i => !pri i)).take 10)
    (hlen : parsed.length ≤ 10) : out.Perm parsed := by
  have hperm : (parsed.filter pri ++ parsed.filter (fun i => !pri i)).Perm parsed :=
    List.filter_append_perm pri parsed
  have hlen2 : ((parsed.filter pri).reverse ++ parsed.filter (fun i => !pri i)).length ≤ 10 := by
    rw [List.length_append, List.length_reverse, ← List.length_append]
    rw [hperm.length_eq]
    exact hlen
  rw [hout, List.take_of_length_le hlen2]
  exact (((parsed.filter pri).reverse_perm.append_right _).trans hperm)


/-- Modelled from the spec: the claimed reordering is a stable partition that
moves priority items ahead of the others and caps the list at 10, preserving
relative order within each group. -/
def stableReorderSpec (pri : Str → Bool) (items : List Str) : List Str :=
  (items.filter pri ++ items.filter (fun i => !pri i)).take 10

/-- C7 amended: achievement and extracurricular extraction reorders the parsed
items (split items that survive the strip/minimum-length step, with leading
bullets removed) without filtering them: items matching the priority cues are
moved ahead of non-matching items, non-matching items keep their relative
order, but matching items appear in reversed relative order (each is inserted
at the front); the multiset of output items equals the multiset of parsed
items whenever at most 10 items were parsed, and the list is capped at 10. -/
theorem achievements_extracurricular_reorder (text : Str) :
    (extract_achievements text =
      (((parsedOf procAch (splitRE itemSplitRE text)).filter
          (fun i => hasMatch achPriRE i)).reverse ++
        (parsedOf procAch (splitRE itemSplitRE text)).filter
          (fun i => !hasMatch achPriRE i)).take 10) ∧
    ((parsedOf procAch (splitRE itemSplitRE text)).length ≤ 10 →
      (extract_achievements text).Perm (parsedOf procAch (splitRE itemSplitRE text))) ∧
    (extract_extracurricular text =
      (((parsedOf procExtra (splitRE itemSplitRE text)).filter
          (fun i => leadership_keywords.any (fun kw => hasSub kw (lowerStr i)))).reverse ++
        (parsedOf procExtra (splitRE itemSplitRE text)).filter
          (fun i => !leadership_keywords.any (fun kw => hasSub kw (lowerStr i)))).take 10) ∧
    ((parsedOf procExtra (splitRE itemSplitRE text)).length ≤ 10 →
      (extract_extracurricular text).Perm (parsedOf procExtra (splitRE itemSplitRE text))) :=
  ⟨extract_achievements_eq_take text,
   fun h => reorder_perm_of_le _ _ _ (extract_achievements_eq_take text) h,
   extract_extracurricular_eq_take text,
   fun h => reorder_perm_of_le _ _ _ (extract_extracurricular_eq_take text) h⟩

def achText : Str := strOf "Improved X by a fair amount\nImproved Y by a fair amount"

/-- C7 counterexample: on a section with two quantifiable achievement items the
extractor returns them in reversed order, so it is not the claimed stable
reordering (which, with every item matching the cues, would be the identity). -/
theorem achievements_reorder_not_stable_counterexample :
    parsedOf procAch (splitRE itemSplitRE achText) =
      [strOf "Improved X by a fair amount", strOf "Improved Y by a fair amount"] ∧
    extract_achievements achText =
      [strOf "Improved Y by a fair amount", strOf "Improved X by a fair amount"] ∧
    stableReorderSpec (fun i => hasMatch achPriRE i)
        (parsedOf procAch (splitRE itemSplitRE achText)) =
      [strOf "Improved X by a fair amount", strOf "Improved Y by a fair amount"] ∧
    extract_achievements achText ≠
      stableReorderSpec (fun i => hasMatch achPriRE i)
        (parsedOf procAch (splitRE itemSplitRE achText)) := by
  refine ⟨by decide, by decide, by decide, ?_⟩
  decide

/-- Witness for the amended C7 theorem at a concrete section text. -/
theorem achievements_extracurricular_reorder_witness :
    (parsedOf procAch (splitRE itemSplitRE achText)).length ≤ 10 ∧
    (extract_achievements achText).Perm (parsedOf procAch (splitRE itemSplitRE achText)) ∧
    (parsedOf procExtra (splitRE itemSplitRE achText)).length ≤ 10 ∧
    (extract_extracurricular achText).Perm (parsedOf procExtra (splitRE itemSplitRE achText)) :=
  ⟨by decide, (achievements_extracurricular_reorder achText).2.1 (by decide),
   by decide, (achievements_extracurricular_reorder achText).2.2.2 (by decide)⟩

theorem parseRoleBlock_some {oracle : NlpOracle} {block : Str} {role : Role}
    (h : parseRoleBlock oracle block = some role) :
    ((roleFieldsOf oracle block).role_title ≠ [] ∨ (roleFieldsOf oracle block).company ≠ []) ∧
    role = { title := if (roleFieldsOf oracle block).role_title = [] then strOf "Position"
                      else (roleFieldsOf oracle block).role_title
             company := if (roleFieldsOf oracle block).company = [] then strOf "Company"
                        else (roleFieldsOf oracle block).company
             duration := if (roleFieldsOf oracle block).duration = []
                         then strOf "Duration not specified"
                         else (roleFieldsOf oracle block).duration
             description := if (roleFieldsOf oracle block).description = []
                            then strOf "No description"
                            else (roleFieldsOf oracle block).description
             is_internship := hasMatch internRE block } := by
  unfold parseRoleBlock at h
  by_cases h1 : pyStrip block = []
  · simp [h1] at h
  · simp only [h1, if_false] at h
    by_cases h2 : (roleFieldsOf oracle block).role_title ≠ [] ∨
        (roleFieldsOf oracle block).company ≠ []
    · refine ⟨h2, ?_⟩
      rw [if_pos (by simpa using h2)] at h
      exact (Option.some.injEq _ _ ▸ h).symm
    · rw [if_neg (by simpa using h2)] at h
      exact absurd h (by simp)

theorem mem_foldl_roles (f : Str → Option Role) (blocks : List Str) (init : List Role)
    (role : Role) :
    role ∈ blocks.foldl (fun rs block =>
        match f block with
        | some r => rs ++ [r]
        | none => rs) init ↔
      role ∈ init ∨ ∃ b ∈ blocks, f b = some role := by
  induction blocks generalizing init with
  | nil => simp
  | cons b rest ih =>
    simp only [List.foldl_cons]
    cases hb : f b with
    | none =>
      rw [ih]
      apply or_congr_right
      constructor
      · rintro ⟨x, hx, he⟩
        exact ⟨x, List.mem_cons_of_mem _ hx, he⟩
      · rintro ⟨x, hx, he⟩
        rcases List.mem_cons.mp hx with rfl | hx2
        · rw [hb] at he
          cases he
        · exact ⟨x, hx2, he⟩
    | some r =>
      rw [ih]
      constructor
      · rintro (hm | ⟨x, hx, he⟩)
        · rcases List.mem_append.mp hm with h | h
          · exact Or.inl h
          · simp only [List.mem_singleton] at h
            exact Or.inr ⟨b, List.mem_cons_self _ _, by rw [hb, h]⟩
        · exact Or.inr ⟨x, List.mem_cons_of_mem _ hx, he⟩
      · rintro (h | ⟨x, hx, he⟩)
        · exact Or.inl (List.mem_append.mpr (Or.inl h))
        · rcases List.mem_cons.mp hx with rfl | hx2
          · rw [hb] at he
            exact Or.inl (List.mem_append.mpr (Or.inr (by simp [Option.some.inj he])))
          · exact Or.inr ⟨x, hx2, he⟩

/-- C10: every Role emitted by `extract_experience` has non-empty title,
company, duration and description (defaulting to "Position", "Company",
"Duration not specified" and "No description" when the corresponding extracted
field is empty), and a role block yields a Role only when at least one of the
extracted title or company is non-empty. -/
theorem roles_have_defaults_and_guard (oracle : NlpOracle) (today : Date) (text : Str) :
    (∀ role ∈ (extract_experience oracle today text).roles,
       role.title ≠ [] ∧ role.company ≠ [] ∧ role.duration ≠ [] ∧ role.description ≠ []) ∧
    (∀ block role, parseRoleBlock oracle block = some role →
       ((roleFieldsOf oracle block).role_title ≠ [] ∨ (roleFieldsOf oracle block).company ≠ []) ∧
       role = { title := if (roleFieldsOf oracle block).role_title = [] then strOf "Position"
                         else (roleFieldsOf oracle block).role_title
                company := if (roleFieldsOf oracle block).company = [] then strOf "Company"
                           else (roleFieldsOf oracle block).company
                duration := if (roleFieldsOf oracle block).duration = []
                            then strOf "Duration not specified"
                            else (roleFieldsOf oracle block).duration
                description := if (roleFieldsOf oracle block).description = []
                               then strOf "No description"
                               else (roleFieldsOf oracle block).description
                is_internship := hasMatch internRE block }) ∧
    (∀ block, (roleFieldsOf oracle block).role_title = [] →
       (roleFieldsOf oracle block).company = [] → parseRoleBlock oracle block = none) := by
  refine ⟨?_, fun block role h => parseRoleBlock_some h, ?_⟩
  · intro role hmem
    have hr : (extract_experience oracle today text).roles =
        (splitRE blockSepRE text).foldl (fun rs block =>
          match parseRoleBlock oracle block with
          | some r => rs ++ [r]
          | none => rs) [] := rfl
    rw [hr, mem_foldl_roles] at hmem
    rcases hmem with h | ⟨b, hmemb, hpb⟩
    · cases h
    · obtain ⟨-, rfl⟩ := parseRoleBlock_some hpb
      refine ⟨?_, ?_, ?_, ?_⟩ <;>
        first
        | (dsimp only; split
           · decide
           · assumption)
  · intro block h1 h2
    unfold parseRoleBlock
    by_cases hs : pyStrip block = []
    · simp [hs]
    · simp [hs, h1, h2]

def expText : Str := strOf "Intern\nAcme\nJan 2020 - Jan 2022"

def role1 : Role :=
  { title := strOf "Intern", company := strOf "Company",
    duration := strOf "Jan 2020 - Jan 2022", description := strOf "No description",
    is_internship := true }

/-- Witness for C10 at a concrete experience section. -/
theorem roles_have_defaults_and_guard_witness :
    role1 ∈ (extract_experience noNlp ⟨2025, 10, 12⟩ expText).roles ∧
    (role1.title ≠ [] ∧ role1.company ≠ [] ∧ role1.duration ≠ [] ∧ role1.description ≠ []) :=
  have hm : role1 ∈ (extract_experience noNlp ⟨2025, 10, 12⟩ expText).roles := by decide
  ⟨hm, (roles_have_defaults_and_guard noNlp ⟨2025, 10, 12⟩ expText).1 role1 hm⟩
theorem dateParseFuzzy_jan2020 (t : Date) (h1 : 1 ≤ t.day) (h2 : t.day ≤ 31) :
    dateParseFuzzy t (strOf "Jan 2020") = some ⟨2020, 1, t.day⟩ := by
  obtain ⟨y, m, d⟩ := t
  simp only at h1 h2
  have hs : splitWs (strOf "Jan 2020") = [strOf "Jan", strOf "2020"] := by decide
  rw [dateParseFuzzy, hs]
  simp only [List.foldl_cons, List.foldl_nil,
    show monthFromToken (strOf "Jan") = some 1 from by decide,
    show monthFromToken (strOf "2020") = none from by decide]
  simp +decide [Option.getD, validDate, daysInMonth, isLeapYear,
    show natOfDigits (strOf "2020") = 2020 from by decide]
  omega

theorem dateParseFuzzy_jan2022 (t : Date) (h1 : 1 ≤ t.day) (h2 : t.day ≤ 31) :
    dateParseFuzzy t (strOf "Jan 2022") = some ⟨2022, 1, t.day⟩ := by
  obtain ⟨y, m, d⟩ := t
  simp only at h1 h2
  have hs : splitWs (strOf "Jan 2022") = [strOf "Jan", strOf "2022"] := by decide
  rw [dateParseFuzzy, hs]
  simp only [List.foldl_cons, List.foldl_nil,
    show monthFromToken (strOf "Jan") = some 1 from by decide,
    show monthFromToken (strOf "2022") = none from by decide]
  simp +decide [Option.getD, validDate, daysInMonth, isLeapYear,
    show natOfDigits (strOf "2022") = 2022 from by decide]
  omega

theorem dayNumber_jan_diff (d : Nat) :
    (toDayNumber ⟨2022, 1, d⟩ : ℤ) - (toDayNumber ⟨2020, 1, d⟩ : ℤ) = 731 := by
  have hA : daysBeforeYear 2022 = 738155 := by decide
  have hB : daysBeforeYear 2020 = 737424 := by decide
  have hmA : daysBeforeMonth 2022 1 = 0 := by decide
  have hmB : daysBeforeMonth 2020 1 = 0 := by decide
  unfold toDayNumber
  simp only [hA, hB, hmA, hmB]
  push_cast
  ring

theorem yearsOfRange_jan (t : Date) (h1 : 1 ≤ t.day) (h2 : t.day ≤ 31) :
    yearsOfRange t (strOf "Jan 2020") (strOf "Jan 2022") = 2924 / 1461 := by
  have hq : hasSubCI (strOf "present") (strOf "Jan 2022") = false := by decide
  rw [yearsOfRange, dateParseFuzzy_jan2020 t h1 h2, hq]
  simp only [Bool.false_eq_true, if_false, dateParseFuzzy_jan2022 t h1 h2,
    dayNumber_jan_diff]
  norm_num

theorem yearsOfRange_jan_rev (t : Date) (h1 : 1 ≤ t.day) (h2 : t.day ≤ 31) :
    yearsOfRange t (strOf "Jan 2022") (strOf "Jan 2020") = 0 := by
  have hq : hasSubCI (strOf "present") (strOf "Jan 2020") = false := by decide
  rw [yearsOfRange, dateParseFuzzy_jan2022 t h1 h2, hq]
  have hd : (toDayNumber ⟨2020, 1, t.day⟩ : ℤ) - (toDayNumber ⟨2022, 1, t.day⟩ : ℤ) = -731 := by
    have := dayNumber_jan_diff t.day
    omega
  simp only [Bool.false_eq_true, if_false, dateParseFuzzy_jan2020 t h1 h2, hd]
  rw [max_eq_left (by norm_num)]

theorem pdcy_jan_2020_2022 (t : Date) (h1 : 1 ≤ t.day) (h2 : t.day ≤ 31) :
    parse_dates_and_calculate_years t (strOf "Jan 2020 - Jan 2022") = 2 := by
  have hf1 : findAll datePat1 (strOf "Jan 2020 - Jan 2022") =
      [[(2, strOf "Jan 2022"), (1, strOf "Jan 2020")]] := by decide
  have hf2 : findAll datePat2 (strOf "Jan 2020 - Jan 2022") = [] := by decide
  have hf3 : findAll datePat3 (strOf "Jan 2020 - Jan 2022") = [] := by decide
  rw [parse_dates_and_calculate_years]
  simp only [List.map_cons, List.map_nil, List.sum_cons, List.sum_nil]
  rw [hf1, hf2, hf3]
  simp only [List.map_cons, List.map_nil, List.sum_cons, List.sum_nil]
  have hg1 : getCap 1 [(2, strOf "Jan 2022"), (1, strOf "Jan 2020")] = strOf "Jan 2020" := by
    decide
  have hg2 : getCap 2 [(2, strOf "Jan 2022"), (1, strOf "Jan 2020")] = strOf "Jan 2022" := by
    decide
  rw [hg1, hg2, yearsOfRange_jan t h1 h2, pyRound1]
  have hs : ((2924 : ℚ) / 1461 + 0 + (0 + (0 + 0))) = 2924 / 1461 := by norm_num
  rw [hs]
  have hf : (⌊(10 : ℚ) * (2924 / 1461) + 1 / 2⌋ : ℤ) = 20 := by
    rw [Int.floor_eq_iff]
    norm_num
  rw [hf]
  norm_num

theorem pdcy_jan_reversed (t : Date) (h1 : 1 ≤ t.day) (h2 : t.day ≤ 31) :
    parse_dates_and_calculate_years t (strOf "Jan 2022 - Jan 2020") = 0 := by
  have hf1 : findAll datePat1 (strOf "Jan 2022 - Jan 2020") =
      [[(2, strOf "Jan 2020"), (1, strOf "Jan 2022")]] := by decide
  have hf2 : findAll datePat2 (strOf "Jan 2022 - Jan 2020") = [] := by decide
  have hf3 : findAll datePat3 (strOf "Jan 2022 - Jan 2020") = [] := by decide
  rw [parse_dates_and_calculate_years]
  simp only [List.map_cons, List.map_nil, List.sum_cons, List.sum_nil]
  rw [hf1, hf2, hf3]
  simp only [List.map_cons, List.map_nil, List.sum_cons, List.sum_nil]
  have hg1 : getCap 1 [(2, strOf "Jan 2020"), (1, strOf "Jan 2022")] = strOf "Jan 2022" := by
    decide
  have hg2 : getCap 2 [(2, strOf "Jan 2020"), (1, strOf "Jan 2022")] = strOf "Jan 2020" := by
    decide
  rw [hg1, hg2, yearsOfRange_jan_rev t h1 h2, pyRound1]
  have hs : ((0 : ℚ) + 0 + (0 + (0 + 0))) = 0 := by norm_num
  rw [hs]
  have hf : (⌊(10 : ℚ) * 0 + 1 / 2⌋ : ℤ) = 0 := by
    rw [Int.floor_eq_iff]
    norm_num
  rw [hf]
  norm_num

theorem yearsOfRange_nonneg (today : Date) (g1 g2 : Str) : 0 ≤ yearsOfRange today g1 g2 := by
  unfold yearsOfRange
  split
  · exact le_refl 0
  · dsimp only
    split
    · exact le_refl 0
    · exact le_max_left 0 _

theorem pdcy_nonneg (today : Date) (text : Str) :
    0 ≤ parse_dates_and_calculate_years today text := by
  rw [parse_dates_and_calculate_years, pyRound1]
  have hq : 0 ≤ (([datePat1, datePat2, datePat3].map (fun p =>
      ((findAll p text).map (fun caps =>
        yearsOfRange today (getCap 1 caps) (getCap 2 caps))).sum)).sum) := by
    apply List.sum_nonneg
    intro x hx
    simp only [List.mem_map] at hx
    obtain ⟨p, hp, rfl⟩ := hx
    apply List.sum_nonneg
    intro y hy
    simp only [List.mem_map] at hy
    obtain ⟨caps, hc, rfl⟩ := hy
    exact yearsOfRange_nonneg today _ _
  apply div_nonneg _ (by norm_num : (0 : ℚ) ≤ 10)
  have h2 : (0 : ℤ) ≤ ⌊(10 : ℚ) * (([datePat1, datePat2, datePat3].map (fun p =>
      ((findAll p text).map (fun caps =>
        yearsOfRange today (getCap 1 caps) (getCap 2 caps))).sum)).sum) + 1 / 2⌋ :=
    Int.floor_nonneg.mpr (by linarith)
  exact_mod_cast h2

/-- C8: for every input text (and every current date), the computed total is
non-negative; for every valid current date, the range "Jan 2020 - Jan 2022"
yields exactly 2.0 years after rounding, and the reversed range
"Jan 2022 - Jan 2020" yields 0, never a negative amount. -/
theorem parse_dates_properties :
    (∀ (today : Date) (text : Str), 0 ≤ parse_dates_and_calculate_years today text) ∧
    (∀ t : Date, 1 ≤ t.day → t.day ≤ 31 →
      parse_dates_and_calculate_years t (strOf "Jan 2020 - Jan 2022") = 2 ∧
      parse_dates_and_calculate_years t (strOf "Jan 2022 - Jan 2020") = 0) :=
  ⟨pdcy_nonneg, fun t h1 h2 => ⟨pdcy_jan_2020_2022 t h1 h2, pdcy_jan_reversed t h1 h2⟩⟩

/-- Witness for C8 at the concrete date 2025-10-12 and concrete texts. -/
theorem parse_dates_properties_witness :
    0 ≤ parse_dates_and_calculate_years ⟨2025, 10, 12⟩ (strOf "hello") ∧
    parse_dates_and_calculate_years ⟨2025, 10, 12⟩ (strOf "Jan 2020 - Jan 2022") = 2 ∧
    parse_dates_and_calculate_years ⟨2025, 10, 12⟩ (strOf "Jan 2022 - Jan 2020") = 0 :=
  ⟨parse_dates_properties.1 ⟨2025, 10, 12⟩ (strOf "hello"),
   (parse_dates_properties.2 ⟨2025, 10, 12⟩ (by decide) (by decide)).1,
   (parse_dates_properties.2 ⟨2025, 10, 12⟩ (by decide) (by decide)).2⟩

theorem sum_map_mul_half (l : List Role) (f : Role → ℚ) :
    (l.map (fun r => f r * (1 / 2))).sum = (1 / 2) * (l.map f).sum := by
  induction l with
  | nil => simp
  | cons a t ih =>
    simp only [List.map_cons, List.sum_cons, ih]
    ring

/-- C1: for every experience-section input (and any NLP oracle and current
date), the `ExperienceSummary` satisfies
`years = Σ (computed years of non-internship roles) + 0.5 × Σ (computed years
of internship roles)`, years is never negative, and in particular a single
internship role whose date range computes to 2.0 years contributes exactly
1.0 year. -/
theorem experience_years_invariant (oracle : NlpOracle) (today : Date) (text : Str) :
    (extract_experience oracle today text).years =
      (((extract_experience oracle today text).roles.filter (fun r => !r.is_internship)).map
        (fun r => parse_dates_and_calculate_years today r.duration)).sum +
      (1 / 2) * (((extract_experience oracle today text).roles.filter
          (fun r => r.is_internship)).map
        (fun r => parse_dates_and_calculate_years today r.duration)).sum ∧
    0 ≤ (extract_experience oracle today text).years ∧
    (∀ r, (extract_experience oracle today text).roles = [r] → r.is_internship = true →
      parse_dates_and_calculate_years today r.duration = 2 →
      (extract_experience oracle today text).years = 1) := by
  have heq : (extract_experience oracle today text).years =
      (((extract_experience oracle today text).roles.filter (fun r => !r.is_internship)).map
        (fun r => parse_dates_and_calculate_years today r.duration)).sum +
      (1 / 2) * (((extract_experience oracle today text).roles.filter
          (fun r => r.is_internship)).map
        (fun r => parse_dates_and_calculate_years today r.duration)).sum := by
    show (((extract_experience oracle today text).roles.filter (fun r => !r.is_internship)).map
        (fun r => parse_dates_and_calculate_years today r.duration)).sum +
      (((extract_experience oracle today text).roles.filter (fun r => r.is_internship)).map
        (fun r => parse_dates_and_calculate_years today r.duration * (1 / 2))).sum = _
    rw [sum_map_mul_half]
  refine ⟨heq, ?_, ?_⟩
  · rw [heq]
    have hnn : ∀ (l : List Role),
        0 ≤ (l.map (fun r => parse_dates_and_calculate_years today r.duration)).sum := by
      intro l
      apply List.sum_nonneg
      intro x hx
      simp only [List.mem_map] at hx
      obtain ⟨r, hr, rfl⟩ := hx
      exact pdcy_nonneg today r.duration
    have h1 := hnn ((extract_experience oracle today text).roles.filter
      (fun r => !r.is_internship))
    have h2 := hnn ((extract_experience oracle today text).roles.filter
      (fun r => r.is_internship))
    positivity
  · intro r hroles hint hp
    rw [heq, hroles]
    simp only [List.filter_cons, List.filter_nil, hint, Bool.not_true,
      Bool.false_eq_true, if_false, if_true, List.map_cons, List.map_nil,
      List.sum_cons, List.sum_nil]
    rw [hp]
    norm_num

def today0 : Date := ⟨2025, 10, 12⟩

/-- Witness for C1: a single internship role spanning a computed 2.0 years
contributes exactly 1.0 year to the total. -/
theorem experience_years_invariant_witness :
    (extract_experience noNlp today0 expText).roles = [role1] ∧
    role1.is_internship = true ∧
    parse_dates_and_calculate_years today0 role1.duration = 2 ∧
    (extract_experience noNlp today0 expText).years = 1 :=
  have hp : parse_dates_and_calculate_years today0 role1.duration = 2 :=
    pdcy_jan_2020_2022 today0 (by decide) (by decide)
  ⟨by decide, by decide, hp,
   (experience_years_invariant noNlp today0 expText).2.2 role1 (by decide) (by decide) hp⟩

theorem subAllF_eq_self (f : Str → Option Nat) (repl : Str) :
    ∀ (fuel : Nat) (l : Str), (∀ i, f (l.drop i) = none) → subAllF f repl fuel l = l := by
  intro fuel
  induction fuel with
  | zero => intro l h; cases l <;> rfl
  | succ n ih =>
    intro l h
    cases l with
    | nil => rfl
    | cons c cs =>
      have h0 := h 0
      simp only [List.drop_zero] at h0
      rw [subAllF, h0]
      have hx : subAllF f repl n cs = cs := ih cs (fun i => h (i + 1))
      rw [hx]

theorem subAll_id_of_none (f : Str → Option Nat) (repl : Str) (l : Str)
    (h : ∀ i, f (l.drop i) = none) : subAll f repl l = l :=
  subAllF_eq_self f repl l.length l h

theorem ws_lowerCh_eq (c : Char) (h : isPySpace c = true) : lowerCh c = c := by
  simp only [isPySpace, Bool.or_eq_true, decide_eq_true_eq] at h
  rcases h with ((((h | h) | h) | h) | h) | h <;> subst h <;> decide

theorem leadsWithCI_head {t : Char} {ts : Str} {c : Char} {cs : Str}
    (h : leadsWithCI (t :: ts) (c :: cs) = true) : lowerCh t = lowerCh c := by
  simp only [leadsWithCI, lowerStr, List.map_cons, leadsWith, Bool.and_eq_true,
    decide_eq_true_eq] at h
  exact h.1

theorem ws_not_digit (c : Char) (h : isPySpace c = true) : isPyDigit c = false := by
  simp only [isPySpace, Bool.or_eq_true, decide_eq_true_eq] at h
  rcases h with ((((h | h) | h) | h) | h) | h <;> subst h <;> decide

theorem pageMatchLen_ws (s : Str) (h : ∀ c ∈ s, isPySpace c = true) :
    pageMatchLen s = none := by
  cases s with
  | nil => rfl
  | cons c cs =>
    rw [pageMatchLen]
    have hc : isPySpace c = true := h c (List.mem_cons_self c cs)
    rw [if_neg]
    intro hlw
    have h2 := leadsWithCI_head hlw
    rw [ws_lowerCh_eq c hc] at h2
    have hcp : c = 'p' := by rw [← h2]; rfl
    subst hcp
    exact absurd hc (by decide)

theorem slashMatchLen_ws (s : Str) (h : ∀ c ∈ s, isPySpace c = true) :
    slashMatchLen s = none := by
  cases s with
  | nil => rfl
  | cons c cs =>
    have hc := ws_not_digit c (h c (List.mem_cons_self c cs))
    rw [slashMatchLen]
    simp only [takeCount, List.takeWhile_cons, hc, Bool.false_eq_true, if_false,
      List.length_nil]
    rfl

theorem tokenMatchLen_ws (s : Str) (h : ∀ c ∈ s, isPySpace c = true) :
    tokenMatchLen s = none := by
  cases s with
  | nil => rfl
  | cons c cs =>
    have hc : isPySpace c = true := h c (List.mem_cons_self c cs)
    have hlc := ws_lowerCh_eq c hc
    rw [tokenMatchLen]
    rw [if_neg, if_neg, if_neg, if_neg]
    · intro hlw
      have h2 := leadsWithCI_head hlw
      rw [hlc] at h2
      have h3 : c = 'c' := by rw [← h2]; rfl
      subst h3; exact absurd hc (by decide)
    · intro hlw
      have h2 := leadsWithCI_head hlw
      rw [hlc] at h2
      have h3 : c = 'c' := by rw [← h2]; rfl
      subst h3; exact absurd hc (by decide)
    · intro hlw
      have h2 := leadsWithCI_head hlw
      rw [hlc] at h2
      have h3 : c = 'r' := by rw [← h2]; rfl
      subst h3; exact absurd hc (by decide)
    · intro hlw
      have h2 := leadsWithCI_head hlw
      rw [hlc] at h2
      have h3 : c = 'c' := by rw [← h2]; rfl
      subst h3; exact absurd hc (by decide)

theorem splitNl_ne_nil (l : Str) : splitNl l ≠ [] := by
  cases l with
  | nil => simp [splitNl]
  | cons c cs =>
    rw [splitNl]
    by_cases h : c = '\n'
    · simp [h]
    · simp only [h, if_false]
      cases splitNl cs <;> simp

theorem joinNl_cons (x : Str) (ls : List Str) (h : ls ≠ []) :
    joinNl (x :: ls) = x ++ '\n' :: joinNl ls := by
  cases ls with
  | nil => exact absurd rfl h
  | cons y t => rfl

theorem joinNl_splitNl (l : Str) : joinNl (splitNl l) = l := by
  induction l with
  | nil => rfl
  | cons c cs ih =>
    rw [splitNl]
    by_cases h : c = '\n'
    · simp only [h, if_true]
      rw [joinNl_cons [] (splitNl cs) (splitNl_ne_nil cs), ih]
      rfl
    · simp only [h, if_false]
      rcases hs : splitNl cs with _ | ⟨l2, ls⟩
      · exact absurd hs (splitNl_ne_nil cs)
      · rw [hs] at ih
        cases ls with
        | nil =>
          show joinNl [c :: l2] = c :: cs
          have : joinNl [l2] = cs := ih
          simp only [joinNl] at this ⊢
          rw [this]
        | cons l3 ls2 =>
          show (c :: l2) ++ '\n' :: joinNl (l3 :: ls2) = c :: cs
          rw [← ih]
          rfl

theorem mem_splitNl_mem {c : Char} {li l : Str} (hli : li ∈ splitNl l) (hc : c ∈ li) :
    c ∈ l := by
  induction l generalizing li with
  | nil =>
    simp only [splitNl, List.mem_singleton] at hli
    subst hli
    cases hc
  | cons a cs ih =>
    rw [splitNl] at hli
    by_cases h : a = '\n'
    · simp only [h, if_true, List.mem_cons] at hli
      rcases hli with rfl | hli
      · cases hc
      · exact List.mem_cons_of_mem _ (ih hli hc)
    · simp only [h, if_false] at hli
      rcases hs : splitNl cs with _ | ⟨l2, ls⟩
      · exact absurd hs (splitNl_ne_nil cs)
      · rw [hs] at hli
        rcases List.mem_cons.mp hli with rfl | hli2
        · rcases List.mem_cons.mp hc with rfl | hc2
          · exact List.mem_cons_self _ _
          · exact List.mem_cons_of_mem _ (ih (hs ▸ List.mem_cons_self _ _) hc2)
        · exact List.mem_cons_of_mem _ (ih (hs ▸ List.mem_cons_of_mem _ hli2) hc)

theorem mem_joinNl {c : Char} : ∀ {ls : List Str}, c ∈ joinNl ls →
    (∃ x ∈ ls, c ∈ x) ∨ c = '\n' := by
  intro ls
  induction ls with
  | nil => intro h; cases h
  | cons x t ih =>
    intro h
    cases t with
    | nil =>
      simp only [joinNl] at h
      exact Or.inl ⟨x, List.mem_singleton_self x, h⟩
    | cons y t2 =>
      rw [joinNl_cons x (y :: t2) (by simp)] at h
      rcases List.mem_append.mp h with h1 | h2
      · exact Or.inl ⟨x, List.mem_cons_self _ _, h1⟩
      · rcases List.mem_cons.mp h2 with rfl | h3
        · exact Or.inr rfl
        · rcases ih h3 with ⟨z, hz, hcz⟩ | hnl
          · exact Or.inl ⟨z, List.mem_cons_of_mem _ hz, hcz⟩
          · exact Or.inr hnl

theorem afterLastNl_subset (l : Str) : afterLastNl l ⊆ l := by
  intro c hc
  unfold afterLastNl at hc
  rw [List.mem_reverse] at hc
  have := List.takeWhile_subset _ hc
  rwa [List.mem_reverse] at this

theorem pyStrip_subset (l : Str) : pyStrip l ⊆ l := by
  intro c hc
  unfold pyStrip dropEnd at hc
  rw [List.mem_reverse] at hc
  have h2 := List.dropWhile_subset _ hc
  rw [List.mem_reverse] at h2
  exact List.dropWhile_subset _ h2

theorem pyStrip_ws (l : Str) (h : ∀ c ∈ l, isPySpace c = true) : pyStrip l = [] := by
  unfold pyStrip dropEnd
  have h1 : l.dropWhile isPySpace = [] := List.dropWhile_eq_nil_iff.mpr h
  rw [h1]
  rfl

theorem collapseBlankF_ws (fuel : Nat) (l : Str) (h : ∀ c ∈ l, isPySpace c = true) :
    ∀ c ∈ collapseBlankF fuel l, isPySpace c = true := by
  induction fuel generalizing l with
  | zero =>
    intro c hc
    cases l with
    | nil => cases hc
    | cons a cs => exact h c hc
  | succ n ih =>
    intro c hc
    cases l with
    | nil => cases hc
    | cons a cs =>
      rw [collapseBlankF] at hc
      by_cases ha : a = '\n'
      · simp only [ha, if_true] at hc
        by_cases hrun : 2 ≤ countNl (cs.takeWhile isPySpace)
        · rw [if_pos hrun] at hc
          rcases List.mem_cons.mp hc with rfl | hc2
          · decide
          · rcases List.mem_cons.mp hc2 with rfl | hc3
            · decide
            · rcases List.mem_append.mp hc3 with h4 | h4
              · exact h c (List.mem_cons_of_mem _
                  (List.takeWhile_subset _ (afterLastNl_subset _ h4)))
              · exact ih _ (fun d hd => h d (List.mem_cons_of_mem _ (List.drop_subset _ _ hd)))
                  c h4
        · rw [if_neg hrun] at hc
          rcases List.mem_cons.mp hc with rfl | hc2
          · decide
          · rcases List.mem_append.mp hc2 with h4 | h4
            · exact h c (List.mem_cons_of_mem _ (List.takeWhile_subset _ h4))
            · exact ih _ (fun d hd => h d (List.mem_cons_of_mem _ (List.drop_subset _ _ hd)))
                c h4
      · simp only [ha, if_false] at hc
        rcases List.mem_cons.mp hc with rfl | hc2
        · exact h _ (List.mem_cons_self _ _)
        · exact ih _ (fun d hd => h d (List.mem_cons_of_mem _ hd)) c hc2

theorem collapseSpacesF_ws (fuel : Nat) (l : Str) (h : ∀ c ∈ l, isPySpace c = true) :
    ∀ c ∈ collapseSpacesF fuel l, isPySpace c = true := by
  induction fuel generalizing l with
  | zero =>
    intro c hc
    cases l with
    | nil => cases hc
    | cons a cs => exact h c hc
  | succ n ih =>
    intro c hc
    cases l with
    | nil => cases hc
    | cons a cs =>
      rw [collapseSpacesF] at hc
      by_cases ha : a = ' '
      · simp only [ha, if_true] at hc
        rcases List.mem_cons.mp hc with rfl | hc2
        · decide
        · exact ih _ (fun d hd => h d (List.mem_cons_of_mem _ (List.dropWhile_subset _ hd)))
            c hc2
      · simp only [ha, if_false] at hc
        rcases List.mem_cons.mp hc with rfl | hc2
        · exact h _ (List.mem_cons_self _ _)
        · exact ih _ (fun d hd => h d (List.mem_cons_of_mem _ hd)) c hc2

theorem tabsToSpaceF_ws (fuel : Nat) (l : Str) (h : ∀ c ∈ l, isPySpace c = true) :
    ∀ c ∈ tabsToSpaceF fuel l, isPySpace c = true := by
  induction fuel generalizing l with
  | zero =>
    intro c hc
    cases l with
    | nil => cases hc
    | cons a cs => exact h c hc
  | succ n ih =>
    intro c hc
    cases l with
    | nil => cases hc
    | cons a cs =>
      rw [tabsToSpaceF] at hc
      by_cases ha : a = '\t'
      · simp only [ha, if_true] at hc
        rcases List.mem_cons.mp hc with rfl | hc2
        · decide
        · exact ih _ (fun d hd => h d (List.mem_cons_of_mem _ (List.dropWhile_subset _ hd)))
            c hc2
      · simp only [ha, if_false] at hc
        rcases List.mem_cons.mp hc with rfl | hc2
        · exact h _ (List.mem_cons_self _ _)
        · exact ih _ (fun d hd => h d (List.mem_cons_of_mem _ hd)) c hc2

theorem stripLines_ws (l : Str) (h : ∀ c ∈ l, isPySpace c = true) :
    ∀ c ∈ stripLines l, isPySpace c = true := by
  intro c hc
  unfold stripLines at hc
  rcases mem_joinNl hc with ⟨x, hx, hcx⟩ | rfl
  · obtain ⟨li, hli, rfl⟩ := List.mem_map.mp hx
    exact h c (mem_splitNl_mem hli (pyStrip_subset _ hcx))
  · decide

theorem digitLines_ws_id (l : Str) (h : ∀ c ∈ l, isPySpace c = true) :
    digitLines l = l := by
  unfold digitLines
  have hmap : (splitNl l).map (fun li =>
      if li ≠ [] && li.all isPyDigit then [] else li) = splitNl l := by
    conv_rhs => rw [← List.map_id (splitNl l)]
    apply List.map_congr_left
    intro li hli
    cases li with
    | nil => simp
    | cons c cs =>
      have hcl : isPySpace c = true := h c (mem_splitNl_mem hli (List.mem_cons_self c cs))
      have hnd : isPyDigit c = false := ws_not_digit c hcl
      simp [List.all_cons, hnd]
  rw [hmap, joinNl_splitNl]

theorem subAll_ws_id (f : Str → Option Nat) (repl : Str) (l : Str)
    (hf : ∀ s, (∀ c ∈ s, isPySpace c = true) → f s = none)
    (h : ∀ c ∈ l, isPySpace c = true) : subAll f repl l = l :=
  subAll_id_of_none f repl l (fun _ => hf _ (fun c hc => h c (List.drop_subset _ _ hc)))

theorem clean_text_ws (w : Str) (h : ∀ c ∈ w, isPySpace c = true) : clean_text w = [] := by
  unfold clean_text
  rw [subAll_ws_id _ _ _ pageMatchLen_ws h, subAll_ws_id _ _ _ slashMatchLen_ws h,
    digitLines_ws_id w h, subAll_ws_id _ _ _ tokenMatchLen_ws h]
  apply pyStrip_ws
  intro c hc
  refine stripLines_ws _ ?_ c hc
  intro d hd
  refine tabsToSpaceF_ws _ _ ?_ d hd
  intro e he
  refine collapseSpacesF_ws _ _ ?_ e he
  intro g hg
  exact collapseBlankF_ws _ _ h g hg

/-- C4 amended: a zero-byte input file raises `FileReadError`; a non-empty
whitespace-only input file reads successfully, cleans to the empty string, and
is then rejected with `ValidationError` (text below the minimum length), not
`FileReadError`; in both cases the pipeline never returns a successfully
parsed record. -/
theorem empty_or_whitespace_file_never_parses (oracle : NlpOracle) (fz : FuzzyOracle)
    (today : Date) (f : TextFile) :
    (f.size = 0 → parse_resume_to_model oracle fz today f = .error .fileRead) ∧
    (∀ w, f.size ≠ 0 → firstGoodDecode [f.utf8, f.latin1, f.cp1252] = some w →
      (∀ c ∈ w, isPySpace c = true) →
      parse_resume_to_model oracle fz today f = .error .validation) ∧
    (∀ r : Resume,
      (f.size = 0 ∨ ∃ w, firstGoodDecode [f.utf8, f.latin1, f.cp1252] = some w ∧
        ∀ c ∈ w, isPySpace c = true) →
      parse_resume_to_model oracle fz today f ≠ .ok r) := by
  have hpart1 : f.size = 0 → parse_resume_to_model oracle fz today f = .error .fileRead := by
    intro h0
    unfold parse_resume_to_model read_text_file
    rw [if_pos h0]
  have hpart2 : ∀ w, f.size ≠ 0 → firstGoodDecode [f.utf8, f.latin1, f.cp1252] = some w →
      (∀ c ∈ w, isPySpace c = true) →
      parse_resume_to_model oracle fz today f = .error .validation := by
    intro w hs hd hws
    unfold parse_resume_to_model read_text_file
    rw [if_neg hs, hd]
    show parse_from_text oracle fz today (clean_text w) = _
    rw [clean_text_ws w hws]
    unfold parse_from_text
    simp
  refine ⟨hpart1, hpart2, ?_⟩
  intro r hcase hok
  rcases hcase with h0 | ⟨w, hd, hws⟩
  · rw [hpart1 h0] at hok
    cases hok
  · by_cases hs : f.size = 0
    · rw [hpart1 hs] at hok
      cases hok
    · rw [hpart2 w hs hd hws] at hok
      cases hok

def wsFile : TextFile := ⟨1, some [' '], none, none⟩

def zeroFile : TextFile := ⟨0, none, none, none⟩

/-- C4 counterexample: a whitespace-only (non-empty) file makes the pipeline
raise `ValidationError`, not `FileReadError` as the claim states. -/
theorem whitespace_file_validation_not_fileread :
    parse_resume_to_model noNlp noFuzzy today0 wsFile = .error .validation ∧
    parse_resume_to_model noNlp noFuzzy today0 wsFile ≠ .error .fileRead := by
  refine ⟨by decide, by decide⟩

/-- Witness for the amended C4 theorem on concrete files. -/
theorem empty_or_whitespace_file_never_parses_witness :
    parse_resume_to_model noNlp noFuzzy today0 zeroFile = .error .fileRead ∧
    parse_resume_to_model noNlp noFuzzy today0 wsFile = .error .validation ∧
    parse_resume_to_model noNlp noFuzzy today0 wsFile ≠ .ok { name := [] } :=
  ⟨(empty_or_whitespace_file_never_parses noNlp noFuzzy today0 zeroFile).1 rfl,
   (empty_or_whitespace_file_never_parses noNlp noFuzzy today0 wsFile).2.1
     [' '] (by decide) (by decide) (by decide),
   (empty_or_whitespace_file_never_parses noNlp noFuzzy today0 wsFile).2.2
     { name := [] } (Or.inr ⟨[' '], by decide, by decide⟩)⟩

/-- C6 amended: when the segmenter finds no section headers it returns an
empty section map, and then only the skills extractor falls back to the full
document text; the experience, education, projects, achievements and
extracurricular extractors are applied to the empty string (whose extraction
results are empty), not to the full document. -/
theorem no_sections_fallback (oracle : NlpOracle) (fz : FuzzyOracle) (today : Date)
    (text : Str) (hsec : detect_sections text = [])
    (h1 : text ≠ []) (h2 : 50 ≤ (pyStrip text).length) :
    parse_from_text oracle fz today text = .ok
      { name := if extract_name oracle text = [] then strOf "Unknown"
                else extract_name oracle text
        email := extract_email text
        phone := extract_phone text
        skills := extract_skills oracle fz text
        experience := { years := 0, roles := [] }
        education := extract_education []
        projects := extract_projects oracle fz []
        achievements := extract_achievements []
        extracurricular := extract_extracurricular []
        raw_text := text } ∧
    extract_education ([] : Str) = [] ∧ extract_projects oracle fz [] = [] ∧
    extract_achievements ([] : Str) = [] ∧ extract_extracurricular ([] : Str) = [] := by
  refine ⟨?_, by decide, rfl, by decide, by decide⟩
  unfold parse_from_text
  rw [if_neg (by simp [h1, Nat.not_lt.mpr h2])]
  rw [hsec]
  rfl

def noHdrText : Str :=
  strOf "John Smith\nImproved X by a fair amount this year\nImproved Y by a fair amount this year"

/-- C6 counterexample: on a headerless document the achievements extractor is
applied to the empty string rather than to the full text, so the pipeline
produces no achievements even though the full-text extraction is non-empty. -/
theorem extractors_not_applied_to_full_text_counterexample :
    detect_sections noHdrText = [] ∧
    (parse_from_text noNlp noFuzzy today0 noHdrText).map Resume.achievements = .ok [] ∧
    extract_achievements noHdrText ≠ [] := by
  refine ⟨by decide, by decide, by decide⟩

/-- Witness for the amended C6 theorem at a concrete headerless document. -/
theorem no_sections_fallback_witness :
    parse_from_text noNlp noFuzzy today0 noHdrText = .ok
      { name := if extract_name noNlp noHdrText = [] then strOf "Unknown"
                else extract_name noNlp noHdrText
        email := extract_email noHdrText
        phone := extract_phone noHdrText
        skills := extract_skills noNlp noFuzzy noHdrText
        experience := { years := 0, roles := [] }
        education := extract_education []
        projects := extract_projects noNlp noFuzzy []
        achievements := extract_achievements []
        extracurricular := extract_extracurricular []
        raw_text := noHdrText } ∧
    extract_education ([] : Str) = [] ∧ extract_projects noNlp noFuzzy [] = [] ∧
    extract_achievements ([] : Str) = [] ∧ extract_extracurricular ([] : Str) = [] :=
  no_sections_fallback noNlp noFuzzy today0 noHdrText (by decide) (by decide) (by decide)

def resume5 : Resume :=
  { name := strOf "John Smith", email := none, phone := none, skills := [],
    experience := { years := 0, roles := [] }, education := [], projects := [],
    achievements := [], extracurricular := [], raw_text := noHdrText }

def warnings5 : List Str :=
  [strOf "⚠️  Email not found - ensure contact info is clearly visible",
   strOf "⚠️  Phone number not found",
   strOf "⚠️  No skills detected - check if resume has a Skills section",
   strOf "ℹ️  No experience detected - candidate appears to be a fresher",
   strOf "⚠️  No education information found",
   strOf "❌ CRITICAL: No data extracted - file may be corrupted or format unsupported"]

/-- C5 counterexample: a successfully parsed record over which the validator
produces a non-empty warning list, while no component of the record equals
that list: the warnings are not contained in the record. -/
theorem warnings_not_in_record_counterexample :
    parse_from_text noNlp noFuzzy today0 noHdrText = .ok resume5 ∧
    validate_resume resume5 = warnings5 ∧ warnings5 ≠ [] ∧
    resume5.skills ≠ warnings5 ∧ resume5.achievements ≠ warnings5 ∧
    resume5.extracurricular ≠ warnings5 := by
  refine ⟨rfl, ?_, by decide, by decide, by decide, by decide⟩
  simp [validate_resume, resume5, warnings5]
  exact ⟨by decide, by decide⟩

/-- C5 amended: every successfully parsed record consists exactly of the
extracted fields and the raw cleaned text; `validate_resume` is a pure
function from the assembled record to a list of warning strings and is invoked
on the record, but its result is discarded and the warnings are not part of
the record. -/
theorem parse_record_is_extracted_fields_only (oracle : NlpOracle) (fz : FuzzyOracle)
    (today : Date) (text : Str) (h1 : text ≠ []) (h2 : 50 ≤ (pyStrip text).length) :
    parse_from_text oracle fz today text = .ok
      { name := if extract_name oracle text = [] then strOf "Unknown"
                else extract_name oracle text
        email := extract_email text
        phone := extract_phone text
        skills := extract_skills oracle fz
          (sectionGet (detect_sections text) (strOf "skills") text)
        experience :=
          if (extract_experience oracle today
              (sectionGet (detect_sections text) (strOf "experience") [])).roles = [] then
            { years := 0, roles := [] }
          else extract_experience oracle today
            (sectionGet (detect_sections text) (strOf "experience") [])
        education := extract_education (sectionGet (detect_sections text) (strOf "education") [])
        projects := extract_projects oracle fz
          (sectionGet (detect_sections text) (strOf "projects") [])
        achievements := extract_achievements
          (sectionGet (detect_sections text) (strOf "achievements") [])
        extracurricular := extract_extracurricular
          (sectionGet (detect_sections text) (strOf "extracurricular") [])
        raw_text := text } := by
  unfold parse_from_text
  rw [if_neg (by simp [h1, Nat.not_lt.mpr h2])]

/-- Witness for the amended C5 theorem at a concrete document. -/
theorem parse_record_is_extracted_fields_only_witness :
    parse_from_text noNlp noFuzzy today0 noHdrText = .ok
      { name := if extract_name noNlp noHdrText = [] then strOf "Unknown"
                else extract_name noNlp noHdrText
        email := extract_email noHdrText
        phone := extract_phone noHdrText
        skills := extract_skills noNlp noFuzzy
          (sectionGet (detect_sections noHdrText) (strOf "skills") noHdrText)
        experience :=
          if (extract_experience noNlp today0
              (sectionGet (detect_sections noHdrText) (strOf "experience") [])).roles = [] then
            { years := 0, roles := [] }
          else extract_experience noNlp today0
            (sectionGet (detect_sections noHdrText) (strOf "experience") [])
        education := extract_education
          (sectionGet (detect_sections noHdrText) (strOf "education") [])
        projects := extract_projects noNlp noFuzzy
          (sectionGet (detect_sections noHdrText) (strOf "projects") [])
        achievements := extract_achievements
          (sectionGet (detect_sections noHdrText) (strOf "achievements") [])
        extracurricular := extract_extracurricular
          (sectionGet (detect_sections noHdrText) (strOf "extracurricular") [])
        raw_text := noHdrText } :=
  parse_record_is_extracted_fields_only noNlp noFuzzy today0 noHdrText
    (by decide) (by decide)


theorem leadsWith_append {p a : Str} (b : Str) (h : leadsWith p a = true) :
    leadsWith p (a ++ b) = true := by
  induction p generalizing a with
  | nil => rfl
  | cons x ps ih =>
    cases a with
    | nil => cases h
    | cons c cs =>
      simp only [leadsWith, Bool.and_eq_true] at h ⊢
      exact ⟨h.1, ih h.2⟩

theorem hasSub_append_left {p a : Str} (b : Str) (h : hasSub p a = true) :
    hasSub p (a ++ b) = true := by
  induction a with
  | nil =>
    cases p with
    | nil => cases b <;> simp [hasSub, leadsWith]
    | cons x ps => simp [hasSub, leadsWith] at h
  | cons c cs ih =>
    simp only [hasSub, Bool.or_eq_true] at h ⊢
    rcases h with h | h
    · exact Or.inl (leadsWith_append b h)
    · exact Or.inr (ih h)

theorem hasSub_append_right {p : Str} (a : Str) {b : Str} (h : hasSub p b = true) :
    hasSub p (a ++ b) = true := by
  induction a with
  | nil => exact h
  | cons c cs ih =>
    simp only [List.cons_append, hasSub, Bool.or_eq_true]
    exact Or.inr ih

theorem hasSub_append_split {p a b : Str} (h : hasSub p (a ++ b) = false) :
    hasSub p a = false ∧ hasSub p b = false := by
  constructor
  · cases ha : hasSub p a with
    | false => rfl
    | true => rw [hasSub_append_left b ha] at h; cases h
  · cases hb : hasSub p b with
    | false => rfl
    | true => rw [hasSub_append_right a hb] at h; cases h

theorem hasSub_infix {p a m b : Str} (h : hasSub p (a ++ m ++ b) = false) :
    hasSub p m = false :=
  (hasSub_append_split (hasSub_append_split h).1).2

theorem hasSub_cons_false {p : Str} {c : Char} {l : Str} (h : hasSub p (c :: l) = false) :
    hasSub p l = false := by
  simp only [hasSub, Bool.or_eq_false_iff] at h
  exact h.2

theorem hasSub_drop_leadsWith {q m : Str} (h : hasSub q m = false) :
    ∀ i, leadsWith q (m.drop i) = false := by
  induction m with
  | nil =>
    intro i
    rw [List.drop_nil]
    cases hq : leadsWith q [] with
    | false => rfl
    | true => simp [hasSub, hq] at h
  | cons c cs ih =>
    intro i
    simp only [hasSub, Bool.or_eq_false_iff] at h
    cases i with
    | zero => exact h.1
    | succ j => exact ih h.2 j

theorem hasSubCI_drop_leadsWithCI {p l : Str} (h : hasSubCI p l = false) :
    ∀ i, leadsWithCI p (l.drop i) = false := by
  intro i
  unfold leadsWithCI
  unfold hasSubCI at h
  simp only [lowerStr, List.map_drop]
  exact hasSub_drop_leadsWith h i

theorem leadsWith_prefix {p q l : Str} (h : leadsWith (p ++ q) l = true) :
    leadsWith p l = true := by
  induction p generalizing l with
  | nil => rfl
  | cons x ps ih =>
    cases l with
    | nil => cases h
    | cons c cs =>
      simp only [List.cons_append, leadsWith, Bool.and_eq_true] at h ⊢
      exact ⟨h.1, ih h.2⟩

theorem leadsWithCI_prefix {p q l : Str} (h : leadsWithCI (p ++ q) l = true) :
    leadsWithCI p l = true := by
  unfold leadsWithCI at h ⊢
  rw [lowerStr, List.map_append] at h
  exact leadsWith_prefix h

theorem pageMatchLen_none {s : Str} (h : leadsWithCI (strOf "page") s = false) :
    pageMatchLen s = none := by
  rw [pageMatchLen, if_neg]
  simp [h]

theorem tokenMatchLen_none {s : Str}
    (h1 : leadsWithCI (strOf "confidential") s = false)
    (h2 : leadsWithCI (strOf "resume") s = false)
    (h3 : leadsWithCI (strOf "cv") s = false)
    (h4 : leadsWithCI (strOf "curriculum") s = false) :
    tokenMatchLen s = none := by
  have h5 : leadsWithCI (strOf "curriculum vitae") s = false := by
    cases hx : leadsWithCI (strOf "curriculum vitae") s with
    | false => rfl
    | true =>
      have : leadsWithCI (strOf "curriculum") s = true := by
        have he : strOf "curriculum vitae" = strOf "curriculum" ++ strOf " vitae" := by decide
        rw [he] at hx
        exact leadsWithCI_prefix hx
      rw [this] at h4; cases h4
  rw [tokenMatchLen]
  simp [h1, h2, h3, h4, h5]

theorem slashMatchLen_none {s : Str} (h : ∀ c ∈ s, isPyDigit c = false) :
    slashMatchLen s = none := by
  cases s with
  | nil => rfl
  | cons c cs =>
    have hc := h c (List.mem_cons_self c cs)
    rw [slashMatchLen]
    simp only [takeCount, List.takeWhile_cons, hc, Bool.false_eq_true, if_false,
      List.length_nil]
    rfl

theorem subAll_page_id {x : Str} (h : hasSubCI (strOf "page") x = false) :
    subAll pageMatchLen [] x = x :=
  subAll_id_of_none _ _ _ fun i => pageMatchLen_none (hasSubCI_drop_leadsWithCI h i)

theorem subAll_slash_id {x : Str} (h : ∀ c ∈ x, isPyDigit c = false) :
    subAll slashMatchLen [] x = x :=
  subAll_id_of_none _ _ _ fun _ =>
    slashMatchLen_none fun c hc => h c (List.mem_of_mem_drop hc)

theorem subAll_token_id {x : Str}
    (h1 : hasSubCI (strOf "confidential") x = false)
    (h2 : hasSubCI (strOf "resume") x = false)
    (h3 : hasSubCI (strOf "cv") x = false)
    (h4 : hasSubCI (strOf "curriculum") x = false) :
    subAll tokenMatchLen [] x = x :=
  subAll_id_of_none _ _ _ fun i =>
    tokenMatchLen_none (hasSubCI_drop_leadsWithCI h1 i) (hasSubCI_drop_leadsWithCI h2 i)
      (hasSubCI_drop_leadsWithCI h3 i) (hasSubCI_drop_leadsWithCI h4 i)

theorem digitLines_id {x : Str} (h : ∀ c ∈ x, isPyDigit c = false) :
    digitLines x = x := by
  unfold digitLines
  have hm : ∀ l ∈ splitNl x,
      (fun l => if l ≠ [] && l.all isPyDigit then ([] : Str) else l) l = l := by
    intro l hl
    cases l with
    | nil => simp
    | cons c cs =>
      have hc : isPyDigit c = false := h c (mem_splitNl_mem hl (List.mem_cons_self c cs))
      simp [List.all_cons, hc]
  rw [List.map_congr_left hm]
  have : List.map (fun a : Str => a) (splitNl x) = splitNl x := List.map_id _
  rw [this, joinNl_splitNl]

/-- The conditions under which the four removal stages of `clean_text` are the
identity: no tabs (step 7 inserts a single space for a tab run), no digits
(steps 1-3 only fire on digits), and no occurrence of the boilerplate tokens. -/
def CleanSafe (x : Str) : Prop :=
  (∀ c ∈ x, ¬ c = '\t') ∧ (∀ c ∈ x, isPyDigit c = false) ∧
  hasSubCI (strOf "page") x = false ∧ hasSubCI (strOf "confidential") x = false ∧
  hasSubCI (strOf "resume") x = false ∧ hasSubCI (strOf "cv") x = false ∧
  hasSubCI (strOf "curriculum") x = false

instance (x : Str) : Decidable (CleanSafe x) := by
  unfold CleanSafe; infer_instance

/-- The pure whitespace-normalisation tail of `clean_text` (steps 5-9). -/
def cleanWs (x : Str) : Str :=
  pyStrip (stripLines (tabsToSpace (collapseSpaces (collapseBlank x))))

theorem clean_text_eq_cleanWs {x : Str} (h : CleanSafe x) :
    clean_text x = cleanWs x := by
  obtain ⟨-, hd, hp, h1, h2, h3, h4⟩ := h
  rw [clean_text, cleanWs, subAll_page_id hp, subAll_slash_id hd, digitLines_id hd,
    subAll_token_id h1 h2 h3 h4]

theorem dropWhile_len_le (p : Char → Bool) (l : Str) :
    (l.dropWhile p).length ≤ l.length := by
  induction l with
  | nil => exact Nat.le_refl _
  | cons c cs ih =>
    rw [List.dropWhile_cons]
    by_cases h : p c = true
    · simp only [h, if_true, List.length_cons]
      exact Nat.le_succ_of_le ih
    · simp [h]

theorem collapseBlankF_fuel : ∀ (f1 f2 : Nat) (l : Str), l.length ≤ f1 → l.length ≤ f2 →
    collapseBlankF f1 l = collapseBlankF f2 l := by
  intro f1
  induction f1 with
  | zero =>
    intro f2 l h1 _
    have : l = [] := List.eq_nil_of_length_eq_zero (Nat.le_zero.mp h1)
    subst this
    cases f2 <;> rfl
  | succ n ih =>
    intro f2 l h1 h2
    cases l with
    | nil => cases f2 <;> rfl
    | cons c cs =>
      cases f2 with
      | zero => exact absurd h2 (by simp)
      | succ m =>
        rw [collapseBlankF, collapseBlankF]
        have hcs : cs.length ≤ n := Nat.le_of_succ_le_succ h1
        have hcs2 : cs.length ≤ m := Nat.le_of_succ_le_succ h2
        by_cases hc : c = '\n'
        · simp only [hc, if_true]
          have hrest : (cs.drop (cs.takeWhile isPySpace).length).length ≤ cs.length := by
            rw [List.length_drop]; exact Nat.sub_le _ _
          rw [ih m _ (Nat.le_trans hrest hcs) (Nat.le_trans hrest hcs2)]
        · simp only [hc, if_false]
          rw [ih m cs hcs hcs2]

theorem collapseBlank_cons (c : Char) (cs : Str) :
    collapseBlank (c :: cs) =
      if c = '\n' then
        if 2 ≤ countNl (cs.takeWhile isPySpace) then
          '\n' :: '\n' :: (afterLastNl (cs.takeWhile isPySpace) ++
            collapseBlank (cs.drop (cs.takeWhile isPySpace).length))
        else c :: (cs.takeWhile isPySpace ++
          collapseBlank (cs.drop (cs.takeWhile isPySpace).length))
      else c :: collapseBlank cs := by
  show collapseBlankF (cs.length + 1) (c :: cs) = _
  rw [collapseBlankF]
  dsimp only
  have hrest : (cs.drop (cs.takeWhile isPySpace).length).length ≤ cs.length := by
    rw [List.length_drop]; exact Nat.sub_le _ _
  rw [collapseBlankF_fuel cs.length (cs.drop (cs.takeWhile isPySpace).length).length _
    hrest (Nat.le_refl _)]
  rfl

theorem collapseSpacesF_fuel : ∀ (f1 f2 : Nat) (l : Str), l.length ≤ f1 → l.length ≤ f2 →
    collapseSpacesF f1 l = collapseSpacesF f2 l := by
  intro f1
  induction f1 with
  | zero =>
    intro f2 l h1 _
    have : l = [] := List.eq_nil_of_length_eq_zero (Nat.le_zero.mp h1)
    subst this
    cases f2 <;> rfl
  | succ n ih =>
    intro f2 l h1 h2
    cases l with
    | nil => cases f2 <;> rfl
    | cons c cs =>
      cases f2 with
      | zero => exact absurd h2 (by simp)
      | succ m =>
        rw [collapseSpacesF, collapseSpacesF]
        have hcs : cs.length ≤ n := Nat.le_of_succ_le_succ h1
        have hcs2 : cs.length ≤ m := Nat.le_of_succ_le_succ h2
        by_cases hc : c = ' '
        · simp only [hc, if_true]
          have hd := dropWhile_len_le (fun x => x = ' ') cs
          rw [ih m _ (Nat.le_trans hd hcs) (Nat.le_trans hd hcs2)]
        · simp only [hc, if_false]
          rw [ih m cs hcs hcs2]

theorem collapseSpaces_cons (c : Char) (cs : Str) :
    collapseSpaces (c :: cs) =
      if c = ' ' then ' ' :: collapseSpaces (cs.dropWhile (fun x => x = ' '))
      else c :: collapseSpaces cs := by
  show collapseSpacesF (cs.length + 1) (c :: cs) = _
  rw [collapseSpacesF]
  rw [collapseSpacesF_fuel cs.length (cs.dropWhile (fun x => x = ' ')).length _
    (dropWhile_len_le _ cs) (Nat.le_refl _)]
  rfl

theorem tabsToSpaceF_id : ∀ (fuel : Nat) (l : Str), (∀ c ∈ l, ¬ c = '\t') →
    tabsToSpaceF fuel l = l := by
  intro fuel
  induction fuel with
  | zero => intro l _; cases l <;> rfl
  | succ n ih =>
    intro l h
    cases l with
    | nil => rfl
    | cons c cs =>
      rw [tabsToSpaceF]
      have hc : ¬ c = '\t' := h c (List.mem_cons_self c cs)
      simp only [hc, if_false]
      rw [ih cs fun d hd => h d (List.mem_cons_of_mem c hd)]

theorem tabsToSpace_id {l : Str} (h : ∀ c ∈ l, ¬ c = '\t') : tabsToSpace l = l :=
  tabsToSpaceF_id l.length l h

theorem mem_collapseBlankF : ∀ (fuel : Nat) (l : Str) (c : Char),
    c ∈ collapseBlankF fuel l → c ∈ l ∨ c = '\n' := by
  intro fuel
  induction fuel with
  | zero => intro l c h; cases l <;> exact Or.inl h
  | succ n ih =>
    intro l c h
    cases l with
    | nil => cases h
    | cons d cs =>
      rw [collapseBlankF] at h
      by_cases hd : d = '\n'
      · simp only [hd, if_true] at h
        by_cases h2 : 2 ≤ countNl (cs.takeWhile isPySpace)
        · simp only [h2, if_true] at h
          rcases List.mem_cons.mp h with rfl | h
          · exact Or.inr rfl
          rcases List.mem_cons.mp h with rfl | h
          · exact Or.inr rfl
          rcases List.mem_append.mp h with h | h
          · exact Or.inl (List.mem_cons_of_mem d
              (List.takeWhile_subset _ (afterLastNl_subset _ h)))
          · rcases ih _ c h with h | h
            · exact Or.inl (List.mem_cons_of_mem d (List.mem_of_mem_drop h))
            · exact Or.inr h
        · simp only [h2, if_false] at h
          rcases List.mem_cons.mp h with rfl | h
          · exact Or.inr rfl
          rcases List.mem_append.mp h with h | h
          · exact Or.inl (List.mem_cons_of_mem d (List.takeWhile_subset _ h))
          · rcases ih _ c h with h | h
            · exact Or.inl (List.mem_cons_of_mem d (List.mem_of_mem_drop h))
            · exact Or.inr h
      · simp only [hd, if_false] at h
        rcases List.mem_cons.mp h with rfl | h
        · exact Or.inl (List.mem_cons_self _ _)
        · rcases ih _ c h with h | h
          · exact Or.inl (List.mem_cons_of_mem d h)
          · exact Or.inr h

theorem mem_collapseSpacesF : ∀ (fuel : Nat) (l : Str) (c : Char),
    c ∈ collapseSpacesF fuel l → c ∈ l ∨ c = ' ' := by
  intro fuel
  induction fuel with
  | zero => intro l c h; cases l <;> exact Or.inl h
  | succ n ih =>
    intro l c h
    cases l with
    | nil => cases h
    | cons d cs =>
      rw [collapseSpacesF] at h
      by_cases hd : d = ' '
      · simp only [hd, if_true] at h
        rcases List.mem_cons.mp h with rfl | h
        · exact Or.inr rfl
        · rcases ih _ c h with h | h
          · exact Or.inl (List.mem_cons_of_mem d (List.dropWhile_subset _ h))
          · exact Or.inr h
      · simp only [hd, if_false] at h
        rcases List.mem_cons.mp h with rfl | h
        · exact Or.inl (List.mem_cons_self _ _)
        · rcases ih _ c h with h | h
          · exact Or.inl (List.mem_cons_of_mem d h)
          · exact Or.inr h

/-- Characters that survive the "newline skeleton" projection: non-whitespace
characters and newlines.  `phi2` forgets exactly the blank padding that
`collapseSpaces`, `tabsToSpace` and per-line stripping manipulate, so the
shape of blank-line runs is preserved by those stages. -/
def keepNl (c : Char) : Bool := !(isPySpace c) || c = '\n'

def phi2 (l : Str) : Str := l.filter keepNl

def nlRun3 : Str := ['\n', '\n', '\n']

theorem phi2_append (a b : Str) : phi2 (a ++ b) = phi2 a ++ phi2 b := by
  unfold phi2
  exact List.filter_append a b

theorem phi2_nl_cons (l : Str) : phi2 ('\n' :: l) = '\n' :: phi2 l := by
  unfold phi2
  rw [List.filter_cons_of_pos (by decide)]

theorem phi2_keep_cons {c : Char} (l : Str) (hc : isPySpace c = false) :
    phi2 (c :: l) = c :: phi2 l := by
  unfold phi2
  rw [List.filter_cons_of_pos (by simp [keepNl, hc])]

theorem phi2_skip_cons {c : Char} (l : Str) (hc : isPySpace c = true) (hn : ¬ c = '\n') :
    phi2 (c :: l) = phi2 l := by
  unfold phi2
  rw [List.filter_cons_of_neg (by simp [keepNl, hc, hn])]

theorem phi2_ws (m : Str) (h : ∀ c ∈ m, isPySpace c = true) :
    phi2 m = List.replicate (countNl m) '\n' := by
  induction m with
  | nil => rfl
  | cons c cs ih =>
    have hc : isPySpace c = true := h c (List.mem_cons_self c cs)
    have ihcs := ih fun d hd => h d (List.mem_cons_of_mem c hd)
    by_cases hn : c = '\n'
    · subst hn
      rw [phi2_nl_cons, ihcs]
      simp [countNl, List.count_cons, List.replicate_succ]
    · rw [phi2_skip_cons cs hc hn, ihcs]
      have hcnt : countNl (c :: cs) = countNl cs := by
        simp only [countNl, List.count_cons]
        have hb : (c == '\n') = false := by
          simp only [beq_eq_false_iff_ne, ne_eq]
          exact hn
        simp [hb]
      rw [hcnt]

theorem phi2_ws_nonl (m : Str) (h : ∀ c ∈ m, isPySpace c = true ∧ ¬ c = '\n') :
    phi2 m = [] := by
  induction m with
  | nil => rfl
  | cons c cs ih =>
    obtain ⟨hc, hn⟩ := h c (List.mem_cons_self c cs)
    rw [phi2_skip_cons cs hc hn]
    exact ih fun d hd => h d (List.mem_cons_of_mem c hd)

theorem afterLastNl_no_nl (l : Str) : ∀ c ∈ afterLastNl l, ¬ c = '\n' := by
  intro c hc
  unfold afterLastNl at hc
  rw [List.mem_reverse] at hc
  have := List.mem_takeWhile_imp hc
  simpa using this

theorem drop_takeWhile_len (p : Char → Bool) : ∀ l : Str,
    l.drop (l.takeWhile p).length = l.dropWhile p := by
  intro l
  induction l with
  | nil => rfl
  | cons c cs ih =>
    rw [List.takeWhile_cons, List.dropWhile_cons]
    by_cases hc : p c = true
    · simp only [hc, if_true, List.length_cons, List.drop_succ_cons]
      exact ih
    · simp [hc]

theorem dropWhile_head_false (p : Char → Bool) (l : Str) :
    l.dropWhile p = [] ∨ ∃ d t, l.dropWhile p = d :: t ∧ p d = false := by
  induction l with
  | nil => exact Or.inl rfl
  | cons c cs ih =>
    rw [List.dropWhile_cons]
    by_cases hc : p c = true
    · simp only [hc, if_true]
      exact ih
    · exact Or.inr ⟨c, cs, by simp [hc], by simp [hc]⟩

theorem leadsWith_nl_single {d : Char} (t : Str) (hd : ¬ d = '\n') :
    leadsWith ['\n'] (d :: t) = false := by
  have hx : decide ('\n' = d) = false := decide_eq_false fun h => hd h.symm
  simp [leadsWith, hx]

theorem headNotNl_leadsWith {m : Str}
    (hh : m = [] ∨ ∃ d t, m = d :: t ∧ ¬ d = '\n') :
    leadsWith ['\n'] m = false := by
  rcases hh with rfl | ⟨d, t, rfl, hd⟩
  · rfl
  · exact leadsWith_nl_single t hd

theorem leadsWith_nn_of_single {m : Str} (h : leadsWith ['\n'] m = false) :
    leadsWith ['\n', '\n'] m = false := by
  cases m with
  | nil => rfl
  | cons d t =>
    simp only [leadsWith, Bool.and_eq_false_iff] at h ⊢
    rcases h with h | h
    · exact Or.inl h
    · cases h

/-- Push a pair of newlines onto a string whose first character is not a
newline and which has no triple-newline substring. -/
theorem hasSub_nnn_two {m : Str}
    (hh : m = [] ∨ ∃ d t, m = d :: t ∧ ¬ d = '\n')
    (hm : hasSub nlRun3 m = false) :
    hasSub nlRun3 ('\n' :: '\n' :: m) = false := by
  have h1 := headNotNl_leadsWith hh
  have h2 := leadsWith_nn_of_single h1
  simp only [hasSub, Bool.or_eq_false_iff]
  refine ⟨?_, ?_, hm⟩
  · show leadsWith nlRun3 ('\n' :: '\n' :: m) = false
    rw [nlRun3]
    simp only [leadsWith, h1]
    simp
  · show leadsWith nlRun3 ('\n' :: m) = false
    rw [nlRun3]
    simp only [leadsWith, h2]
    simp

theorem hasSub_nnn_cons_nl {m : Str}
    (hh : m = [] ∨ ∃ d t, m = d :: t ∧ ¬ d = '\n')
    (hm : hasSub nlRun3 m = false) :
    hasSub nlRun3 ('\n' :: m) = false := by
  have h2 := leadsWith_nn_of_single (headNotNl_leadsWith hh)
  simp only [hasSub, Bool.or_eq_false_iff]
  refine ⟨?_, hm⟩
  show leadsWith nlRun3 ('\n' :: m) = false
  rw [nlRun3]
  simp only [leadsWith, h2]
  simp

theorem hasSub_nnn_cons_other {c : Char} {m : Str} (hc : ¬ c = '\n') :
    hasSub nlRun3 (c :: m) = hasSub nlRun3 m := by
  have h0 : leadsWith nlRun3 (c :: m) = false := by
    rw [nlRun3]
    have hx : decide ('\n' = c) = false := decide_eq_false fun h => hc h.symm
    simp [leadsWith, hx]
  simp only [hasSub, h0, Bool.false_or]

theorem phi2_collapseBlank_head {rest : Str}
    (hr : rest = [] ∨ ∃ d t, rest = d :: t ∧ isPySpace d = false) :
    phi2 (collapseBlank rest) = [] ∨
      ∃ d t, phi2 (collapseBlank rest) = d :: t ∧ ¬ d = '\n' := by
  rcases hr with rfl | ⟨d, t, rfl, hd⟩
  · exact Or.inl rfl
  · have hdn : ¬ d = '\n' := by
      intro h
      subst h
      exact absurd hd (by decide)
    rw [collapseBlank_cons, if_neg hdn, phi2_keep_cons _ hd]
    exact Or.inr ⟨d, _, rfl, hdn⟩

/-- The blank-line collapsing stage never leaves three consecutive newlines in
the newline skeleton of its output. -/
theorem collapseBlank_no_nnn : ∀ (n : Nat) (l : Str), l.length ≤ n →
    hasSub nlRun3 (phi2 (collapseBlank l)) = false := by
  intro n
  induction n with
  | zero =>
    intro l h
    have hl : l = [] := List.eq_nil_of_length_eq_zero (Nat.le_zero.mp h)
    subst hl
    decide
  | succ n ih =>
    intro l hlen
    cases l with
    | nil => decide
    | cons c cs =>
      have hcs_len : cs.length ≤ n := Nat.le_of_succ_le_succ hlen
      by_cases hc : c = '\n'
      · subst hc
        rw [collapseBlank_cons, if_pos rfl, drop_takeWhile_len]
        have hrest_len : (cs.dropWhile isPySpace).length ≤ n :=
          Nat.le_trans (dropWhile_len_le _ cs) hcs_len
        have hheads := phi2_collapseBlank_head (dropWhile_head_false isPySpace cs)
        have hih := ih _ hrest_len
        by_cases h2 : 2 ≤ countNl (cs.takeWhile isPySpace)
        · rw [if_pos h2, phi2_nl_cons, phi2_nl_cons, phi2_append]
          rw [phi2_ws_nonl (afterLastNl (cs.takeWhile isPySpace))
            (fun a ha => ⟨List.mem_takeWhile_imp (afterLastNl_subset _ ha),
              afterLastNl_no_nl _ a ha⟩)]
          rw [List.nil_append]
          exact hasSub_nnn_two hheads hih
        · rw [if_neg h2, phi2_nl_cons, phi2_append]
          rw [phi2_ws (cs.takeWhile isPySpace) (fun d hd => List.mem_takeWhile_imp hd)]
          have hk : countNl (cs.takeWhile isPySpace) ≤ 1 :=
            Nat.lt_succ_iff.mp (Nat.lt_of_not_le h2)
          rcases Nat.le_one_iff_eq_zero_or_eq_one.mp hk with h0 | h1
          · rw [h0, List.replicate_zero, List.nil_append]
            exact hasSub_nnn_cons_nl hheads hih
          · rw [h1, List.replicate_one, List.singleton_append]
            exact hasSub_nnn_two hheads hih
      · rw [collapseBlank_cons, if_neg hc]
        by_cases hw : isPySpace c = true
        · rw [phi2_skip_cons _ hw hc]
          exact ih cs hcs_len
        · rw [phi2_keep_cons _ (by simpa using hw), hasSub_nnn_cons_other hc]
          exact ih cs hcs_len

/-- On input whose newline skeleton has no triple newline, blank-line
collapsing is the identity. -/
theorem collapseBlank_id : ∀ (n : Nat) (l : Str), l.length ≤ n →
    hasSub nlRun3 (phi2 l) = false → collapseBlank l = l := by
  intro n
  induction n with
  | zero =>
    intro l h _
    have hl : l = [] := List.eq_nil_of_length_eq_zero (Nat.le_zero.mp h)
    subst hl
    rfl
  | succ n ih =>
    intro l hlen hsub
    cases l with
    | nil => rfl
    | cons c cs =>
      have hcs_len : cs.length ≤ n := Nat.le_of_succ_le_succ hlen
      rw [collapseBlank_cons]
      by_cases hc : c = '\n'
      · subst hc
        rw [if_pos rfl, drop_takeWhile_len]
        have hcs : cs.takeWhile isPySpace ++ cs.dropWhile isPySpace = cs :=
          List.takeWhile_append_dropWhile isPySpace cs
        have hsub2 : hasSub nlRun3
            (phi2 (cs.takeWhile isPySpace) ++ phi2 (cs.dropWhile isPySpace)) = false := by
          rw [phi2_nl_cons] at hsub
          have := hasSub_cons_false hsub
          rwa [← hcs, phi2_append] at this
        have h2 : ¬ 2 ≤ countNl (cs.takeWhile isPySpace) := by
          intro h2
          obtain ⟨k, hk⟩ : ∃ k, countNl (cs.takeWhile isPySpace) = k + 2 :=
            ⟨countNl (cs.takeWhile isPySpace) - 2, (Nat.sub_add_cancel h2).symm⟩
          rw [phi2_nl_cons, ← hcs, phi2_append,
            phi2_ws (cs.takeWhile isPySpace) (fun d hd => List.mem_takeWhile_imp hd),
            hk] at hsub
          simp [hasSub, leadsWith, List.replicate_succ] at hsub
        rw [if_neg h2]
        have hrest : collapseBlank (cs.dropWhile isPySpace) = cs.dropWhile isPySpace :=
          ih _ (Nat.le_trans (dropWhile_len_le _ cs) hcs_len)
            (hasSub_append_split hsub2).2
        rw [hrest, hcs]
      · rw [if_neg hc]
        have hsubcs : hasSub nlRun3 (phi2 cs) = false := by
          by_cases hw : isPySpace c = true
          · rwa [phi2_skip_cons _ hw hc] at hsub
          · rw [phi2_keep_cons _ (by simpa using hw)] at hsub
            exact hasSub_cons_false hsub
        rw [ih cs hcs_len hsubcs]

def spRun2 : Str := [' ', ' ']

theorem hasSub_sp2_cons {m : Str}
    (hh : m = [] ∨ ∃ d t, m = d :: t ∧ ¬ d = ' ')
    (hm : hasSub spRun2 m = false) :
    hasSub spRun2 (' ' :: m) = false := by
  simp only [hasSub, Bool.or_eq_false_iff]
  refine ⟨?_, hm⟩
  show leadsWith spRun2 (' ' :: m) = false
  rw [spRun2]
  rcases hh with rfl | ⟨d, t, rfl, hd⟩
  · decide
  · have hx : decide (' ' = d) = false := decide_eq_false fun h => hd h.symm
    simp [leadsWith, hx]

theorem hasSub_sp2_cons_other {c : Char} {m : Str} (hc : ¬ c = ' ') :
    hasSub spRun2 (c :: m) = hasSub spRun2 m := by
  have h0 : leadsWith spRun2 (c :: m) = false := by
    rw [spRun2]
    have hx : decide (' ' = c) = false := decide_eq_false fun h => hc h.symm
    simp [leadsWith, hx]
  simp only [hasSub, h0, Bool.false_or]

theorem collapseSpaces_head {m : Str}
    (hr : m = [] ∨ ∃ d t, m = d :: t ∧ ¬ d = ' ') :
    collapseSpaces m = [] ∨ ∃ d t, collapseSpaces m = d :: t ∧ ¬ d = ' ' := by
  rcases hr with rfl | ⟨d, t, rfl, hd⟩
  · exact Or.inl rfl
  · rw [collapseSpaces_cons, if_neg hd]
    exact Or.inr ⟨d, _, rfl, hd⟩

/-- Space-run collapsing never leaves two consecutive spaces. -/
theorem collapseSpaces_no_sp2 : ∀ (n : Nat) (l : Str), l.length ≤ n →
    hasSub spRun2 (collapseSpaces l) = false := by
  intro n
  induction n with
  | zero =>
    intro l h
    have hl : l = [] := List.eq_nil_of_length_eq_zero (Nat.le_zero.mp h)
    subst hl
    decide
  | succ n ih =>
    intro l hlen
    cases l with
    | nil => decide
    | cons c cs =>
      have hcs_len : cs.length ≤ n := Nat.le_of_succ_le_succ hlen
      rw [collapseSpaces_cons]
      by_cases hc : c = ' '
      · subst hc
        rw [if_pos rfl]
        have hdh : cs.dropWhile (fun x => x = ' ') = [] ∨
            ∃ d t, cs.dropWhile (fun x => x = ' ') = d :: t ∧ ¬ d = ' ' := by
          rcases dropWhile_head_false (fun x => x = ' ') cs with h | ⟨d, t, ht, hd⟩
          · exact Or.inl h
          · exact Or.inr ⟨d, t, ht, by simpa using hd⟩
        exact hasSub_sp2_cons (collapseSpaces_head hdh)
          (ih _ (Nat.le_trans (dropWhile_len_le _ cs) hcs_len))
      · rw [if_neg hc, hasSub_sp2_cons_other hc]
        exact ih cs hcs_len

/-- On input with no two consecutive spaces, space-run collapsing is the
identity. -/
theorem collapseSpaces_id : ∀ (n : Nat) (l : Str), l.length ≤ n →
    hasSub spRun2 l = false → collapseSpaces l = l := by
  intro n
  induction n with
  | zero =>
    intro l h _
    have hl : l = [] := List.eq_nil_of_length_eq_zero (Nat.le_zero.mp h)
    subst hl
    rfl
  | succ n ih =>
    intro l hlen hsub
    cases l with
    | nil => rfl
    | cons c cs =>
      have hcs_len : cs.length ≤ n := Nat.le_of_succ_le_succ hlen
      rw [collapseSpaces_cons]
      by_cases hc : c = ' '
      · subst hc
        rw [if_pos rfl]
        have hhd : cs.dropWhile (fun x => x = ' ') = cs := by
          cases cs with
          | nil => rfl
          | cons d t =>
            rw [List.dropWhile_cons]
            have hd : ¬ d = ' ' := by
              intro h
              subst h
              simp [spRun2, hasSub, leadsWith] at hsub
            simp [hd]
        rw [hhd, ih cs hcs_len (hasSub_cons_false hsub)]
      · rw [if_neg hc, ih cs hcs_len (hasSub_cons_false hsub)]

theorem phi2_dropWhile_sp (l : Str) : phi2 (l.dropWhile (fun x => x = ' ')) = phi2 l := by
  induction l with
  | nil => rfl
  | cons c cs ih =>
    rw [List.dropWhile_cons]
    by_cases hc : c = ' '
    · subst hc
      rw [if_pos (by decide), ih, phi2_skip_cons _ (by decide) (by decide)]
    · rw [if_neg (by simpa using hc)]

/-- Space-run collapsing preserves the newline skeleton. -/
theorem phi2_collapseSpaces : ∀ (n : Nat) (l : Str), l.length ≤ n →
    phi2 (collapseSpaces l) = phi2 l := by
  intro n
  induction n with
  | zero =>
    intro l h
    have hl : l = [] := List.eq_nil_of_length_eq_zero (Nat.le_zero.mp h)
    subst hl
    rfl
  | succ n ih =>
    intro l hlen
    cases l with
    | nil => rfl
    | cons c cs =>
      have hcs_len : cs.length ≤ n := Nat.le_of_succ_le_succ hlen
      rw [collapseSpaces_cons]
      by_cases hc : c = ' '
      · subst hc
        rw [if_pos rfl, phi2_skip_cons _ (by decide) (by decide),
          phi2_skip_cons _ (by decide) (by decide),
          ih _ (Nat.le_trans (dropWhile_len_le _ cs) hcs_len),
          phi2_dropWhile_sp]
      · rw [if_neg hc]
        by_cases hcn : c = '\n'
        · subst hcn
          rw [phi2_nl_cons, phi2_nl_cons, ih cs hcs_len]
        · by_cases hw : isPySpace c = true
          · rw [phi2_skip_cons _ hw hcn, phi2_skip_cons _ hw hcn]
            exact ih cs hcs_len
          · rw [phi2_keep_cons _ (by simpa using hw), phi2_keep_cons _ (by simpa using hw),
              ih cs hcs_len]

theorem splitNl_no_nl : ∀ (l : Str), ∀ li ∈ splitNl l, ∀ c ∈ li, ¬ c = '\n' := by
  intro l
  induction l with
  | nil =>
    intro li hli c hc
    rw [splitNl] at hli
    rcases List.mem_cons.mp hli with rfl | h
    · cases hc
    · cases h
  | cons d rest ih =>
    intro li hli c hc
    rw [splitNl] at hli
    by_cases hd : d = '\n'
    · rw [if_pos hd] at hli
      rcases List.mem_cons.mp hli with rfl | h
      · cases hc
      · exact ih li h c hc
    · rw [if_neg hd] at hli
      cases hsp : splitNl rest with
      | nil => exact absurd hsp (splitNl_ne_nil rest)
      | cons l2 ls2 =>
        rw [hsp] at hli
        rcases List.mem_cons.mp hli with rfl | h
        · rcases List.mem_cons.mp hc with rfl | h2
          · exact hd
          · exact ih l2 (hsp ▸ List.mem_cons_self l2 ls2) c h2
        · exact ih li (hsp ▸ List.mem_cons_of_mem l2 h) c hc

theorem splitNl_head_prefix : ∀ {l x : Str} {ls : List Str},
    splitNl l = x :: ls → ∃ r, l = x ++ r := by
  intro l
  induction l with
  | nil =>
    intro x ls h
    rw [splitNl] at h
    obtain ⟨rfl, -⟩ := List.cons.inj h
    exact ⟨[], rfl⟩
  | cons d rest ih =>
    intro x ls h
    rw [splitNl] at h
    by_cases hd : d = '\n'
    · rw [if_pos hd] at h
      obtain ⟨rfl, -⟩ := List.cons.inj h
      exact ⟨d :: rest, rfl⟩
    · rw [if_neg hd] at h
      cases hsp : splitNl rest with
      | nil => exact absurd hsp (splitNl_ne_nil rest)
      | cons l2 ls2 =>
        rw [hsp] at h
        obtain ⟨rfl, -⟩ := List.cons.inj h
        obtain ⟨r, hr⟩ := ih hsp
        exact ⟨r, by rw [List.cons_append, ← hr]⟩

theorem splitNl_decomp : ∀ (l : Str), ∀ li ∈ splitNl l, ∃ a b, l = a ++ li ++ b := by
  intro l
  induction l with
  | nil =>
    intro li hli
    rw [splitNl] at hli
    rcases List.mem_cons.mp hli with rfl | h
    · exact ⟨[], [], rfl⟩
    · cases h
  | cons d rest ih =>
    intro li hli
    rw [splitNl] at hli
    by_cases hd : d = '\n'
    · rw [if_pos hd] at hli
      rcases List.mem_cons.mp hli with rfl | h
      · exact ⟨[], d :: rest, rfl⟩
      · obtain ⟨a, b, hab⟩ := ih li h
        exact ⟨d :: a, b, by rw [hab]; rfl⟩
    · rw [if_neg hd] at hli
      cases hsp : splitNl rest with
      | nil => exact absurd hsp (splitNl_ne_nil rest)
      | cons l2 ls2 =>
        rw [hsp] at hli
        rcases List.mem_cons.mp hli with rfl | h
        · obtain ⟨r, hr⟩ := splitNl_head_prefix hsp
          exact ⟨[], r, by rw [hr]; rfl⟩
        · obtain ⟨a, b, hab⟩ := ih li (hsp ▸ List.mem_cons_of_mem l2 h)
          exact ⟨d :: a, b, by rw [hab]; rfl⟩

theorem hasSub_splitNl {p l : Str} (h : hasSub p l = false) :
    ∀ li ∈ splitNl l, hasSub p li = false := by
  intro li hli
  obtain ⟨a, b, hab⟩ := splitNl_decomp l li hli
  rw [hab] at h
  exact hasSub_infix h

theorem splitNl_nlfree {x : Str} (h : ∀ c ∈ x, ¬ c = '\n') : splitNl x = [x] := by
  induction x with
  | nil => rfl
  | cons c cs ih =>
    rw [splitNl, if_neg (h c (List.mem_cons_self c cs)),
      ih fun d hd => h d (List.mem_cons_of_mem c hd)]

theorem splitNl_append_nl {x : Str} (r : Str) (h : ∀ c ∈ x, ¬ c = '\n') :
    splitNl (x ++ '\n' :: r) = x :: splitNl r := by
  induction x with
  | nil =>
    rw [List.nil_append, splitNl, if_pos rfl]
  | cons c cs ih =>
    rw [List.cons_append, splitNl, if_neg (h c (List.mem_cons_self c cs)),
      ih fun d hd => h d (List.mem_cons_of_mem c hd)]

theorem splitNl_joinNl : ∀ (ls : List Str), ls ≠ [] →
    (∀ li ∈ ls, ∀ c ∈ li, ¬ c = '\n') → splitNl (joinNl ls) = ls := by
  intro ls
  induction ls with
  | nil => intro h _; exact absurd rfl h
  | cons x t ih =>
    intro _ hnl
    cases t with
    | nil =>
      show splitNl (joinNl [x]) = [x]
      rw [joinNl]
      exact splitNl_nlfree (hnl x (List.mem_cons_self x []))
    | cons y t2 =>
      rw [joinNl_cons x (y :: t2) (by simp),
        splitNl_append_nl _ (hnl x (List.mem_cons_self x _)),
        ih (by simp) fun li hli c hc => hnl li (List.mem_cons_of_mem x hli) c hc]

theorem phi2_joinNl : ∀ (ls : List Str), phi2 (joinNl ls) = joinNl (ls.map phi2) := by
  intro ls
  induction ls with
  | nil => rfl
  | cons x t ih =>
    cases t with
    | nil => rfl
    | cons y t2 =>
      rw [joinNl_cons x (y :: t2) (by simp), phi2_append, phi2_nl_cons, ih]
      simp only [List.map_cons]
      rw [joinNl_cons (phi2 x) (phi2 y :: t2.map phi2) (by simp)]

theorem dropEnd_decomp (p : Char → Bool) (m : Str) :
    m = dropEnd p m ++ (m.reverse.takeWhile p).reverse := by
  conv_lhs => rw [← List.reverse_reverse m, ← List.takeWhile_append_dropWhile p m.reverse]
  rw [List.reverse_append]
  rfl

theorem pyStrip_decomp (l : Str) : ∃ w1 w2, l = w1 ++ (pyStrip l ++ w2) ∧
    (∀ c ∈ w1, isPySpace c = true) ∧ (∀ c ∈ w2, isPySpace c = true) := by
  refine ⟨l.takeWhile isPySpace,
    ((l.dropWhile isPySpace).reverse.takeWhile isPySpace).reverse, ?_,
    fun c hc => List.mem_takeWhile_imp hc,
    fun c hc => List.mem_takeWhile_imp (List.mem_reverse.mp hc)⟩
  conv_lhs => rw [← List.takeWhile_append_dropWhile isPySpace l]
  congr 1
  exact dropEnd_decomp isPySpace (l.dropWhile isPySpace)

theorem hasSub_pyStrip {p l : Str} (h : hasSub p l = false) :
    hasSub p (pyStrip l) = false := by
  obtain ⟨w1, w2, hdec, -, -⟩ := pyStrip_decomp l
  rw [hdec] at h
  exact (hasSub_append_split (hasSub_append_split h).2).1

theorem phi2_pyStrip_nlfree {li : Str} (h : ∀ c ∈ li, ¬ c = '\n') :
    phi2 (pyStrip li) = phi2 li := by
  obtain ⟨w1, w2, hdec, hw1, hw2⟩ := pyStrip_decomp li
  have hmem1 : ∀ c ∈ w1, c ∈ li := fun c hc => by
    rw [hdec]; exact List.mem_append_left _ hc
  have hmem2 : ∀ c ∈ w2, c ∈ li := fun c hc => by
    rw [hdec]; exact List.mem_append_right _ (List.mem_append_right _ hc)
  conv_rhs => rw [hdec]
  rw [phi2_append, phi2_append,
    phi2_ws_nonl w1 (fun c hc => ⟨hw1 c hc, h c (hmem1 c hc)⟩),
    phi2_ws_nonl w2 (fun c hc => ⟨hw2 c hc, h c (hmem2 c hc)⟩),
    List.nil_append, List.append_nil]

/-- Per-line stripping preserves the newline skeleton. -/
theorem phi2_stripLines (l : Str) : phi2 (stripLines l) = phi2 l := by
  unfold stripLines
  rw [phi2_joinNl, List.map_map]
  have hmap : (splitNl l).map (phi2 ∘ pyStrip) = (splitNl l).map phi2 :=
    List.map_congr_left fun li hli =>
      phi2_pyStrip_nlfree fun c hc => splitNl_no_nl l li hli c hc
  rw [hmap, ← phi2_joinNl, joinNl_splitNl]

theorem hasSub_sp2_sep : ∀ (a : Str) {b : Str}, hasSub spRun2 a = false →
    hasSub spRun2 b = false → hasSub spRun2 (a ++ '\n' :: b) = false := by
  intro a
  induction a with
  | nil =>
    intro b _ hb
    rw [List.nil_append, hasSub_sp2_cons_other (by decide)]
    exact hb
  | cons c a2 ih =>
    intro b ha hb
    rw [List.cons_append]
    by_cases hc : c = ' '
    · subst hc
      have hh : a2 ++ '\n' :: b = [] ∨ ∃ d t, a2 ++ '\n' :: b = d :: t ∧ ¬ d = ' ' := by
        cases a2 with
        | nil => exact Or.inr ⟨'\n', b, rfl, by decide⟩
        | cons d t =>
          have hd : ¬ d = ' ' := by
            intro h
            subst h
            simp [spRun2, hasSub, leadsWith] at ha
          exact Or.inr ⟨d, _, rfl, hd⟩
      exact hasSub_sp2_cons hh (ih (hasSub_cons_false ha) hb)
    · rw [hasSub_sp2_cons_other hc]
      exact ih (hasSub_cons_false ha) hb

theorem hasSub_sp2_joinNl : ∀ (ls : List Str),
    (∀ li ∈ ls, hasSub spRun2 li = false) → hasSub spRun2 (joinNl ls) = false := by
  intro ls
  induction ls with
  | nil => intro _; decide
  | cons x t ih =>
    intro h
    cases t with
    | nil => exact h x (List.mem_cons_self x [])
    | cons y t2 =>
      rw [joinNl_cons x (y :: t2) (by simp)]
      exact hasSub_sp2_sep x (h x (List.mem_cons_self x _))
        (ih fun li hli => h li (List.mem_cons_of_mem x hli))

theorem hasSub_sp2_stripLines {l : Str} (h : hasSub spRun2 l = false) :
    hasSub spRun2 (stripLines l) = false := by
  unfold stripLines
  apply hasSub_sp2_joinNl
  intro li hli
  simp only [List.mem_map] at hli
  obtain ⟨lj, hlj, rfl⟩ := hli
  exact hasSub_pyStrip (hasSub_splitNl h lj hlj)

theorem mem_stripLines {c : Char} {l : Str} (h : c ∈ stripLines l) : c ∈ l ∨ c = '\n' := by
  unfold stripLines at h
  rcases mem_joinNl h with ⟨li, hli, hc⟩ | rfl
  · simp only [List.mem_map] at hli
    obtain ⟨lj, hlj, rfl⟩ := hli
    exact Or.inl (mem_splitNl_mem hlj (pyStrip_subset lj hc))
  · exact Or.inr rfl

theorem dropWhile_id_of_head {p : Char → Bool} {m : Str}
    (h : m = [] ∨ ∃ d t, m = d :: t ∧ p d = false) : m.dropWhile p = m := by
  rcases h with rfl | ⟨d, t, rfl, hd⟩
  · rfl
  · rw [List.dropWhile_cons]
    simp [hd]

theorem dropWhile_idem (p : Char → Bool) (x : Str) :
    (x.dropWhile p).dropWhile p = x.dropWhile p :=
  dropWhile_id_of_head (dropWhile_head_false p x)

theorem dropWhile_eq_of_length {p : Char → Bool} {m : Str}
    (h : (m.dropWhile p).length = m.length) : m.dropWhile p = m := by
  have hsplit : m.takeWhile p ++ m.dropWhile p = m := List.takeWhile_append_dropWhile p m
  have hlen : (m.takeWhile p).length + (m.dropWhile p).length = m.length := by
    rw [← List.length_append, hsplit]
  have ht : (m.takeWhile p).length = 0 := by omega
  have ht2 : m.takeWhile p = [] := List.eq_nil_of_length_eq_zero ht
  rw [ht2, List.nil_append] at hsplit
  exact hsplit

theorem pyStrip_len_le (l : Str) : (pyStrip l).length ≤ l.length := by
  show (dropEnd isPySpace (l.dropWhile isPySpace)).length ≤ l.length
  unfold dropEnd
  rw [List.length_reverse]
  calc ((l.dropWhile isPySpace).reverse.dropWhile isPySpace).length
      ≤ (l.dropWhile isPySpace).reverse.length := dropWhile_len_le _ _
    _ = (l.dropWhile isPySpace).length := List.length_reverse _
    _ ≤ l.length := dropWhile_len_le _ _

theorem stripped_dropWhile {li : Str} (h : pyStrip li = li) :
    li.dropWhile isPySpace = li := by
  apply dropWhile_eq_of_length
  have h1 : (pyStrip li).length ≤ (li.dropWhile isPySpace).length := by
    show (dropEnd isPySpace (li.dropWhile isPySpace)).length ≤ _
    unfold dropEnd
    rw [List.length_reverse]
    calc ((li.dropWhile isPySpace).reverse.dropWhile isPySpace).length
        ≤ (li.dropWhile isPySpace).reverse.length := dropWhile_len_le _ _
      _ = (li.dropWhile isPySpace).length := List.length_reverse _
  rw [h] at h1
  exact Nat.le_antisymm (dropWhile_len_le _ _) h1

theorem stripped_rev_dropWhile {li : Str} (h : pyStrip li = li) :
    li.reverse.dropWhile isPySpace = li.reverse := by
  have h2 : dropEnd isPySpace li = li := by
    conv_lhs => rw [← stripped_dropWhile h]
    exact h
  have h3 : (li.reverse.dropWhile isPySpace).reverse = li := h2
  calc li.reverse.dropWhile isPySpace
      = ((li.reverse.dropWhile isPySpace).reverse).reverse := (List.reverse_reverse _).symm
    _ = li.reverse := by rw [h3]

theorem stripped_of_parts {li : Str} (h1 : li.dropWhile isPySpace = li)
    (h2 : li.reverse.dropWhile isPySpace = li.reverse) : pyStrip li = li := by
  show dropEnd isPySpace (li.dropWhile isPySpace) = li
  rw [h1]
  show (li.reverse.dropWhile isPySpace).reverse = li
  rw [h2, List.reverse_reverse]

theorem stripped_reverse {li : Str} (h : pyStrip li = li) :
    pyStrip li.reverse = li.reverse := by
  apply stripped_of_parts
  · exact stripped_rev_dropWhile h
  · rw [List.reverse_reverse]
    exact stripped_dropWhile h

theorem pyStrip_idem (l : Str) : pyStrip (pyStrip l) = pyStrip l := by
  apply stripped_of_parts
  · apply dropWhile_id_of_head
    cases hx : pyStrip l with
    | nil => exact Or.inl rfl
    | cons d t =>
      refine Or.inr ⟨d, t, rfl, ?_⟩
      have hdec := dropEnd_decomp isPySpace (l.dropWhile isPySpace)
      rw [show dropEnd isPySpace (l.dropWhile isPySpace) = pyStrip l from rfl, hx] at hdec
      rcases dropWhile_head_false isPySpace l with h0 | ⟨d2, t2, h1, h2⟩
      · rw [h0] at hdec
        exact absurd hdec.symm (by simp)
      · rw [h1, List.cons_append] at hdec
        obtain ⟨hde, -⟩ := List.cons.inj hdec
        rw [hde] at h2
        exact h2
  · apply dropWhile_id_of_head
    have hrev : (pyStrip l).reverse = (l.dropWhile isPySpace).reverse.dropWhile isPySpace := by
      show ((((l.dropWhile isPySpace).reverse.dropWhile isPySpace)).reverse).reverse = _
      rw [List.reverse_reverse]
    rw [hrev]
    exact dropWhile_head_false _ _

theorem stripped_head {d : Char} {t : Str} (h : pyStrip (d :: t) = d :: t) :
    isPySpace d = false := by
  have h1 := stripped_dropWhile h
  rw [List.dropWhile_cons] at h1
  by_cases hw : isPySpace d = true
  · rw [if_pos hw] at h1
    have := dropWhile_len_le isPySpace t
    rw [h1] at this
    simp at this
  · simpa using hw

theorem joinNl_append_single : ∀ (as : List Str) (b : Str), as ≠ [] →
    joinNl (as ++ [b]) = joinNl as ++ '\n' :: b := by
  intro as
  induction as with
  | nil => intro b h; exact absurd rfl h
  | cons a t ih =>
    intro b _
    cases t with
    | nil =>
      rw [show ([a] : List Str) ++ [b] = [a, b] from rfl, joinNl_cons a [b] (by simp)]
      rfl
    | cons a2 t2 =>
      rw [List.cons_append, joinNl_cons a ((a2 :: t2) ++ [b]) (by simp), ih b (by simp),
        joinNl_cons a (a2 :: t2) (by simp), List.append_assoc, List.cons_append]

theorem joinNl_reverse : ∀ (ls : List Str),
    (joinNl ls).reverse = joinNl (ls.reverse.map List.reverse) := by
  intro ls
  induction ls with
  | nil => rfl
  | cons x t ih =>
    cases t with
    | nil => rfl
    | cons y t2 =>
      rw [joinNl_cons x (y :: t2) (by simp), List.reverse_append, List.reverse_cons, ih]
      have hR : (x :: y :: t2).reverse.map List.reverse =
          (y :: t2).reverse.map List.reverse ++ [x.reverse] := by
        rw [List.reverse_cons, List.map_append]
        rfl
      rw [hR, joinNl_append_single _ _ (by simp), List.append_assoc, List.singleton_append]

/-- Leading blank lines of a newline-join of stripped lines are exactly the
leading whitespace. -/
theorem dropWhile_ws_joinNl : ∀ (ls : List Str),
    (∀ li ∈ ls, pyStrip li = li ∧ ∀ c ∈ li, ¬ c = '\n') →
    (joinNl ls).dropWhile isPySpace =
      joinNl (ls.dropWhile (fun li => li.isEmpty)) := by
  intro ls
  induction ls with
  | nil => intro _; rfl
  | cons x t ih =>
    intro h
    have hx := (h x (List.mem_cons_self x t)).1
    have ht : ∀ li ∈ t, pyStrip li = li ∧ ∀ c ∈ li, ¬ c = '\n' :=
      fun li hli => h li (List.mem_cons_of_mem x hli)
    cases t with
    | nil =>
      cases x with
      | nil => rfl
      | cons d t2 =>
        have hd := stripped_head hx
        have hR : ([d :: t2] : List Str).dropWhile (fun li => li.isEmpty) = [d :: t2] := by
          rw [List.dropWhile_cons]
          simp
        show (d :: t2).dropWhile isPySpace =
          joinNl (([d :: t2] : List Str).dropWhile (fun li => li.isEmpty))
        rw [hR, List.dropWhile_cons, hd]
        simp [joinNl]
    | cons y t3 =>
      rw [joinNl_cons x (y :: t3) (by simp)]
      cases x with
      | nil =>
        have hR : (([] : Str) :: y :: t3).dropWhile (fun li => li.isEmpty) =
            (y :: t3).dropWhile (fun li => li.isEmpty) := by
          rw [List.dropWhile_cons]
          simp
        rw [List.nil_append, List.dropWhile_cons]
        simp only [show isPySpace '\n' = true by decide, if_true]
        rw [ih ht, hR]
      | cons d t2 =>
        have hd := stripped_head hx
        rw [List.cons_append, List.dropWhile_cons, hd]
        simp only [Bool.false_eq_true, if_false, List.dropWhile_cons, List.isEmpty_cons,
          if_false]
        rw [joinNl_cons (d :: t2) (y :: t3) (by simp), List.cons_append]

theorem dropWhile_isEmpty_map_rev : ∀ (xs : List Str),
    (xs.map List.reverse).dropWhile (fun li => li.isEmpty) =
      (xs.dropWhile (fun li => li.isEmpty)).map List.reverse := by
  intro xs
  induction xs with
  | nil => rfl
  | cons x t ih =>
    cases x with
    | nil =>
      show (([] : Str) :: t.map List.reverse).dropWhile (fun li => li.isEmpty) =
        ((([] : Str) :: t).dropWhile (fun li => li.isEmpty)).map List.reverse
      rw [List.dropWhile_cons, List.dropWhile_cons]
      simp only [List.isEmpty_nil, if_true]
      exact ih
    | cons d t2 =>
      show ((d :: t2).reverse :: t.map List.reverse).dropWhile (fun li => li.isEmpty) =
        (((d :: t2) :: t).dropWhile (fun li => li.isEmpty)).map List.reverse
      rw [List.dropWhile_cons, List.dropWhile_cons]
      have h1 : ((d :: t2).reverse).isEmpty = false := by simp
      have h2 : ((d :: t2 : Str)).isEmpty = false := by simp
      rw [h1, h2]
      simp only [Bool.false_eq_true, if_false, List.map_cons]

theorem joinNl_map_rev (Y : List Str) :
    (joinNl (Y.map List.reverse)).reverse = joinNl Y.reverse := by
  rw [joinNl_reverse]
  congr 1
  rw [List.map_reverse, List.map_map]
  have hcg : Y.map (List.reverse ∘ List.reverse) = Y.map id :=
    List.map_congr_left fun a _ => List.reverse_reverse a
  rw [hcg, List.map_id]

/-- Drop the leading and trailing run of empty lines. -/
def trimEmptyLines (ls : List Str) : List Str :=
  ((ls.dropWhile (fun li => li.isEmpty)).reverse.dropWhile (fun li => li.isEmpty)).reverse

theorem mem_trimEmptyLines {li : Str} {ls : List Str} (h : li ∈ trimEmptyLines ls) :
    li ∈ ls := by
  unfold trimEmptyLines at h
  rw [List.mem_reverse] at h
  have h2 := List.dropWhile_subset _ h
  rw [List.mem_reverse] at h2
  exact List.dropWhile_subset _ h2

/-- Stripping a newline-join of stripped newline-free lines drops exactly the
leading and trailing runs of empty lines. -/
theorem pyStrip_joinNl_stripped (ls : List Str)
    (h : ∀ li ∈ ls, pyStrip li = li ∧ ∀ c ∈ li, ¬ c = '\n') :
    pyStrip (joinNl ls) = joinNl (trimEmptyLines ls) := by
  show dropEnd isPySpace ((joinNl ls).dropWhile isPySpace) = _
  rw [dropWhile_ws_joinNl ls h]
  have h1 : ∀ li ∈ ls.dropWhile (fun li => li.isEmpty),
      pyStrip li = li ∧ ∀ c ∈ li, ¬ c = '\n' :=
    fun li hli => h li (List.dropWhile_subset _ hli)
  have hrev : ∀ li ∈ (ls.dropWhile (fun li => li.isEmpty)).reverse.map List.reverse,
      pyStrip li = li ∧ ∀ c ∈ li, ¬ c = '\n' := by
    intro li hli
    simp only [List.mem_map, List.mem_reverse] at hli
    obtain ⟨lj, hlj, rfl⟩ := hli
    obtain ⟨hs, hn⟩ := h1 lj hlj
    exact ⟨stripped_reverse hs, fun c hc => hn c (List.mem_reverse.mp hc)⟩
  show ((joinNl (ls.dropWhile (fun li => li.isEmpty))).reverse.dropWhile isPySpace).reverse =
    joinNl (trimEmptyLines ls)
  rw [joinNl_reverse (ls.dropWhile (fun li => li.isEmpty)), dropWhile_ws_joinNl _ hrev,
    dropWhile_isEmpty_map_rev, joinNl_map_rev]
  rfl

theorem stripLines_id_of_stripped {y : Str} (h : ∀ li ∈ splitNl y, pyStrip li = li) :
    stripLines y = y := by
  unfold stripLines
  have hmap : (splitNl y).map pyStrip = (splitNl y).map id := List.map_congr_left h
  rw [hmap, List.map_id, joinNl_splitNl]

theorem stripLines_lines_ok (w : Str) :
    ∀ li ∈ (splitNl w).map pyStrip, pyStrip li = li ∧ ∀ c ∈ li, ¬ c = '\n' := by
  intro li hli
  simp only [List.mem_map] at hli
  obtain ⟨lj, hlj, rfl⟩ := hli
  exact ⟨pyStrip_idem lj, fun c hc => splitNl_no_nl w lj hlj c (pyStrip_subset lj hc)⟩

/-- Whole-text stripping of an already line-stripped text leaves a fixed point
of per-line stripping. -/
theorem pyStrip_stripLines_fix (w : Str) :
    stripLines (pyStrip (stripLines w)) = pyStrip (stripLines w) := by
  have hok := stripLines_lines_ok w
  have hps : pyStrip (stripLines w) = joinNl (trimEmptyLines ((splitNl w).map pyStrip)) := by
    unfold stripLines
    exact pyStrip_joinNl_stripped _ hok
  rw [hps]
  cases htrim : trimEmptyLines ((splitNl w).map pyStrip) with
  | nil => rfl
  | cons z zs =>
    apply stripLines_id_of_stripped
    have hlines : ∀ li ∈ (z :: zs), pyStrip li = li ∧ ∀ c ∈ li, ¬ c = '\n' := by
      intro li hli
      exact hok li (mem_trimEmptyLines (htrim ▸ hli))
    rw [splitNl_joinNl (z :: zs) (by simp) (fun li hli c hc => (hlines li hli).2 c hc)]
    exact fun li hli => (hlines li hli).1

theorem collapse_no_tab {x : Str} (hx : ∀ c ∈ x, ¬ c = '\t') :
    ∀ c ∈ collapseSpaces (collapseBlank x), ¬ c = '\t' := by
  intro c hc
  rcases mem_collapseSpacesF _ _ c hc with h | rfl
  · rcases mem_collapseBlankF _ _ c h with h2 | rfl
    · exact hx c h2
    · decide
  · decide

theorem cleanWs_eq_no_tab {x : Str} (hx : ∀ c ∈ x, ¬ c = '\t') :
    cleanWs x = pyStrip (stripLines (collapseSpaces (collapseBlank x))) := by
  unfold cleanWs
  rw [tabsToSpace_id (collapse_no_tab hx)]

/-- On tab-free input the whitespace-normalisation tail of `clean_text` is
idempotent. -/
theorem cleanWs_fix {x : Str} (hx : ∀ c ∈ x, ¬ c = '\t') :
    cleanWs (cleanWs x) = cleanWs x := by
  rw [cleanWs_eq_no_tab hx]
  have hwt : ∀ c ∈ collapseSpaces (collapseBlank x), ¬ c = '\t' := collapse_no_tab hx
  have hyt : ∀ c ∈ pyStrip (stripLines (collapseSpaces (collapseBlank x))), ¬ c = '\t' := by
    intro c hc
    rcases mem_stripLines (pyStrip_subset _ hc) with h2 | rfl
    · exact hwt c h2
    · decide
  have hysp : hasSub spRun2
      (pyStrip (stripLines (collapseSpaces (collapseBlank x)))) = false :=
    hasSub_pyStrip (hasSub_sp2_stripLines
      (collapseSpaces_no_sp2 (collapseBlank x).length _ (Nat.le_refl _)))
  have hc1 : hasSub nlRun3 (phi2 (stripLines (collapseSpaces (collapseBlank x)))) = false := by
    rw [phi2_stripLines, phi2_collapseSpaces (collapseBlank x).length _ (Nat.le_refl _)]
    exact collapseBlank_no_nnn x.length x (Nat.le_refl _)
  have hynn : hasSub nlRun3
      (phi2 (pyStrip (stripLines (collapseSpaces (collapseBlank x))))) = false := by
    obtain ⟨w1, w2, hdec, -, -⟩ :=
      pyStrip_decomp (stripLines (collapseSpaces (collapseBlank x)))
    rw [hdec, phi2_append, phi2_append] at hc1
    exact (hasSub_append_split (hasSub_append_split hc1).2).1
  unfold cleanWs
  rw [collapseBlank_id _ _ (Nat.le_refl _) hynn,
    collapseSpaces_id _ _ (Nat.le_refl _) hysp,
    tabsToSpace_id hyt,
    pyStrip_stripLines_fix,
    pyStrip_idem]

/-- C3 (counterexample): `clean_text` is not idempotent.  On `"a \tb"` the
first pass turns the tab run into a space after the space-collapsing stage has
already run, leaving `"a  b"`; the second pass collapses the two spaces to
`"a b"`. -/
theorem clean_text_not_idempotent :
    clean_text (clean_text (strOf "a \tb")) ≠ clean_text (strOf "a \tb") := by
  decide

/-- C3 (amended): `clean_text` is idempotent on every input that is free of
tabs, digits and the boilerplate tokens removed by stages 1-4 (`page`,
`confidential`, `resume`, `cv`, `curriculum`), both before and after the first
pass.  On such inputs the removal stages are the identity and the whitespace
tail `cleanWs` is a closure operation. -/
theorem clean_text_conditionally_idempotent {x : Str}
    (h1 : CleanSafe x) (h2 : CleanSafe (clean_text x)) :
    clean_text (clean_text x) = clean_text x := by
  rw [clean_text_eq_cleanWs h1] at h2 ⊢
  rw [clean_text_eq_cleanWs h2]
  exact cleanWs_fix h1.1

/-- C3 witness: a concrete safe input on which the amended idempotence theorem
applies. -/
theorem clean_text_conditionally_idempotent_witness :
    CleanSafe (strOf " hello  world\n\n\n\nbye \n") ∧
    CleanSafe (clean_text (strOf " hello  world\n\n\n\nbye \n")) ∧
    clean_text (clean_text (strOf " hello  world\n\n\n\nbye \n")) =
      clean_text (strOf " hello  world\n\n\n\nbye \n") :=
  ⟨by decide, by decide,
   clean_text_conditionally_idempotent (by decide) (by decide)⟩
end SRS
